import Mathlib

/-!
Verification of the header-tree reconstruction and row-to-header mapping
algorithm of the `html-table-parser-node` library, a shallow embedding of
`src/index.js` in Lean.

Strings are modelled as Lean `String` (a list of characters); the JavaScript
regex class `\s` is modelled by `isWs`.  `String.prototype.replace` with a
string replacement follows ECMAScript GetSubstitution (`expandDollar`): the
replacement is a template in which `$$`, `$&`, `` $` `` and `$'` are patterns;
`/\s/` has no capture groups, so every other `$` is literal.
`String.prototype.toLowerCase` is a host primitive whose full Unicode table
is not reproduced here: the normalization pipeline is therefore also defined
over an arbitrary lowercasing function (`preReplaceLow`, `normalizeLLow`),
and the concrete pipeline (`normalizeKey`) instantiates it with ASCII case
folding (`asciiLower`) — every concrete string evaluated in this development
is ASCII, where the two agree.  The C5 idempotence theorem is stated over any
lowercasing function satisfying the properties Unicode case conversion has,
so it does not depend on the ASCII instance.

Functions of the source that recurse through the nested header tree, or whose
loops terminate by a size argument that is not structural, are defined with an
explicit fuel parameter (structural in the fuel) plus a wrapper passing a fuel
that provably suffices; fuel-irrelevance lemmas recover the natural unfolding
equations.  This keeps every definition executable by kernel reduction.
-/

/-! ## Definitions: the embedded program -/

/-- Code points matched by the JavaScript regex class `\s`: tab, LF, VT, FF,
CR, space, NBSP, Ogham space mark, the Unicode space separators U+2000-U+200A,
line separator, paragraph separator, narrow NBSP, medium mathematical space,
ideographic space and BOM. -/
def wsCode (n : Nat) : Bool :=
  n == 9 || n == 10 || n == 11 || n == 12 || n == 13 || n == 32 ||
  n == 160 || n == 5760 || (8192 ≤ n && n ≤ 8202) || n == 8232 ||
  n == 8233 || n == 8239 || n == 8287 || n == 12288 || n == 65279

/-- Whether a character matches the JavaScript regex class `\s`. -/
def isWs (c : Char) : Bool :=
  wsCode c.toNat

/-- Drop the leading whitespace of a character list (one side of JS
`String.prototype.trim`). -/
def dropWs : List Char → List Char
  | [] => []
  | c :: cs => if isWs c then dropWs cs else c :: cs

/-- JS `name.trim()`: strip leading and trailing whitespace. -/
def trimWsL (l : List Char) : List Char :=
  ((dropWs l).reverse |> dropWs).reverse

/-- Fueled worker for `name.replace(/\s\s+/g, ' ')`: every run of two or more
whitespace characters becomes a single space; a lone whitespace character is
kept verbatim.  The fuel is structural; `collapseWs` passes `l.length`, which
always suffices because every step consumes at least one character. -/
def collapseF : Nat → List Char → List Char
  | 0, l => l
  | _ + 1, [] => []
  | _ + 1, [c] => [c]
  | fuel + 1, c1 :: c2 :: rest =>
    if isWs c1 && isWs c2 then ' ' :: collapseF fuel (dropWs rest)
    else c1 :: collapseF fuel (c2 :: rest)

/-- JS `name.replace(/\s\s+/g, ' ')`. -/
def collapseWs (l : List Char) : List Char :=
  collapseF l.length l

/-- ECMAScript `GetSubstitution` for a string replacement template, applied at
one match of `/\s/g`: `pre` and `post` are the parts of the subject before and
after the match, `m` the matched whitespace character.  `$$` yields `$`, `$&`
the matched character, `$` followed by a backquote (code 96) the part before
the match, `$` followed by a quote (code 39) the part after; `/\s/` has no
capture groups and no named groups, so any other `$` — `$1`, `$<`, a trailing
`$` — stands for itself. -/
def expandDollar (pre post : List Char) (m : Char) : List Char → List Char
  | [] => []
  | [c] => [c]
  | c :: d :: rest =>
    if c = '$' then
      if d = '$' then '$' :: expandDollar pre post m rest
      else if d = '&' then m :: expandDollar pre post m rest
      else if d.toNat = 96 then pre ++ expandDollar pre post m rest
      else if d.toNat = 39 then post ++ expandDollar pre post m rest
      else '$' :: expandDollar pre post m (d :: rest)
    else c :: expandDollar pre post m (d :: rest)

/-- Worker for `name.replace(/\s/g, rep)`: scan the subject, replacing each
whitespace character by the expansion of `rep` at that match.  `orig` is the
whole subject and `i` the current position: a global replace finds its
matches, and resolves the dollar patterns, against the original string. -/
def replaceWsGo (orig rep : List Char) : Nat → List Char → List Char
  | _, [] => []
  | i, c :: cs =>
    if isWs c then
      expandDollar (orig.take i) (orig.drop (i + 1)) c rep ++
        replaceWsGo orig rep (i + 1) cs
    else c :: replaceWsGo orig rep (i + 1) cs

/-- JS `name.replace(/\s/g, rep)` (line 48) with replacement string `rep`. -/
def replaceWsL (rep l : List Char) : List Char :=
  replaceWsGo l rep 0 l

/-- Literal substitution of every whitespace character by `rep`: what the
replace of line 48 computes when `rep` contains no `$` (proved below as
`replaceWsL_lit`). -/
def replaceWsLit (rep : List Char) : List Char → List Char
  | [] => []
  | c :: cs => (if isWs c then rep else [c]) ++ replaceWsLit rep cs

/-- Whether a replacement string is free of the pattern character `$`. -/
def noDollar (l : List Char) : Bool :=
  l.all (fun c => !(c == '$'))

/-- The `replace_whitespaces_keys` option: JS allows `true`/`false` or a
replacement string. -/
inductive ReplWs where
  | flag (b : Bool)
  | str (s : String)

/-- JS truthiness of the option value: `false` and the empty string are falsy
(the replace step is skipped), `true` and non-empty strings are truthy. -/
def ReplWs.active : ReplWs → Bool
  | .flag b => b
  | .str s => !(s == "")

/-- The replacement string used when the option is active: `'_'` for the
boolean form, the given string otherwise. -/
def ReplWs.repl : ReplWs → String
  | .flag _ => "_"
  | .str s => s

/-- The constructor options of `HtmlTableParser` (all defaulting to on). -/
structure ParserOpts where
  trim_keys : Bool := true
  lowercase_keys : Bool := true
  remove_double_whitespaces : Bool := true
  replace_whitespaces_keys : ReplWs := .flag true

/-- The first three steps of the normalization pipeline of `_getHeaders`
(lines 45-47) — trim, lowercase, collapse whitespace runs, each applied only
when its option is truthy, in this fixed order — over an arbitrary model
`low` of the host primitive `String.prototype.toLowerCase`. -/
def preReplaceLow (low : List Char → List Char) (o : ParserOpts) (l : List Char) :
    List Char :=
  let l1 := if o.trim_keys then trimWsL l else l
  let l2 := if o.lowercase_keys then low l1 else l1
  if o.remove_double_whitespaces then collapseWs l2 else l2

/-- The key-normalization pipeline of `_getHeaders` (lines 44-48) on character
lists, over an arbitrary lowercasing model: the three steps above followed,
when its option is truthy, by the whitespace replacement of line 48. -/
def normalizeLLow (low : List Char → List Char) (o : ParserOpts) (l : List Char) :
    List Char :=
  if o.replace_whitespaces_keys.active then
    replaceWsL o.replace_whitespaces_keys.repl.data (preReplaceLow low o l)
  else preReplaceLow low o l

/-- The key-normalization pipeline on strings, over an arbitrary lowercasing
model. -/
def normalizeKeyLow (low : List Char → List Char) (o : ParserOpts) (s : String) :
    String :=
  ⟨normalizeLLow low o s.data⟩

/-- ASCII case folding: the lowercasing instance used for concrete
evaluation.  Every concrete string this development evaluates is ASCII, where
it agrees with the host's Unicode lowercasing. -/
def asciiLower (l : List Char) : List Char :=
  l.map Char.toLower

/-- Lines 45-47 with the concrete lowercasing instance. -/
def preReplace (o : ParserOpts) (l : List Char) : List Char :=
  preReplaceLow asciiLower o l

/-- Lines 44-48 with the concrete lowercasing instance. -/
def normalizeL (o : ParserOpts) (l : List Char) : List Char :=
  normalizeLLow asciiLower o l

/-- The key-normalization pipeline on strings. -/
def normalizeKey (o : ParserOpts) (s : String) : String :=
  ⟨normalizeL o s.data⟩

/-
The source builds record keys with template literals (`unlabelled_${i}`,
`_${i}`), whose number-to-string conversion is decimal.  It is modelled with
`Nat.repr`, proved injective below via the decimal value of the digit string,
so that distinct indices give distinct keys.
-/

/-- Decimal value of a digit string (each char's code point minus 48). -/
def val10 (l : List Char) : Nat :=
  l.foldl (fun a c => 10 * a + (c.toNat - 48)) 0

/-
A mapped row is a JavaScript object: an insertion-ordered association list.
Property assignment updates an existing key in place (keeping its position)
or appends a new one.  Values are cell strings, `undefined` (what `shift()`
returns on an empty array), or nested objects.
-/

inductive Value where
  | str (s : String)
  | undef
  | obj (entries : List (String × Value))

abbrev Record := List (String × Value)

/-- Property lookup `r[k]`: the value at the first matching key. -/
def recGet : Record → String → Option Value
  | [], _ => none
  | (k', v) :: rest, k => if k' == k then some v else recGet rest k

/-- Property assignment `r[k] = v`: update in place or append. -/
def setKey : Record → String → Value → Record
  | [], k, v => [(k, v)]
  | (k', v') :: rest, k, v =>
    if k' == k then (k', v) :: rest else (k', v') :: setKey rest k v

/-- JS truthiness of `fullHeaders[header.name]` (the collision test of
`_mapRowToHeaders` line 112): absent keys and `undefined` are falsy, strings
are truthy iff non-empty, objects are always truthy. -/
def vTruthy : Option Value → Bool
  | none => false
  | some (.str s) => !(s == "")
  | some .undef => false
  | some (.obj _) => true

/-
`HeaderCell` mirrors the objects built at `_getHeaders` lines 50-54:
`{ name, remainingSubheaders: parseInt(colspan) || 0, subheaders: [] }`.

The DOM model below reflects the document produced by the HTML parser the
library loads its input with (cheerio in standards mode): inside a `table`,
every `tr` lives in a section, and rows written without a section are wrapped
in an implied `tbody`, so `find('thead').find('tr')` yields `theadRows`,
`find('tbody').find('tr')` yields `tbodyRows`, and `find('tr')` yields all
rows in document order (`theadRows ++ tbodyRows`).  A `tr`'s cell elements
are `th`/`td` only; `colspan` holds the value of
`parseInt(attr('colspan')) || 0` (0 when the attribute is absent or
non-numeric).
-/

inductive HeaderCell where
  | mk (name : String) (remainingSubheaders : Int) (subheaders : List HeaderCell)

compile_inductive% HeaderCell

def HeaderCell.name : HeaderCell → String
  | .mk n _ _ => n

def HeaderCell.remainingSubheaders : HeaderCell → Int
  | .mk _ sp _ => sp

def HeaderCell.subheaders : HeaderCell → List HeaderCell
  | .mk _ _ subs => subs

inductive CellTag where
  | th
  | td
deriving DecidableEq

structure DomCell where
  tag : CellTag
  text : String
  colspan : Int

structure DomRow where
  cells : List DomCell

structure DomTable where
  theadRows : List DomRow
  tbodyRows : List DomRow

/-- One header-cell object as first constructed (lines 50-54), from a
(normalized name, span) pair. -/
def mkHeaderCell (p : String × Int) : HeaderCell :=
  HeaderCell.mk p.1 p.2 []

/-- The span charge of an attached cell: `header.subheaders.length || 1`
(line 73). -/
def chargeOf (h : HeaderCell) : Int :=
  if h.subheaders.isEmpty then 1 else (h.subheaders.length : Int)

/-- The inner `k` loop of lines 70-77: scan the parent group in order for the
first cell whose `remainingSubheaders` is truthy (non-zero), charge it, append
`h` to its `subheaders`; `none` when no parent is eligible. -/
def attach (h : HeaderCell) : List HeaderCell → Option (List HeaderCell)
  | [] => none
  | p :: ps =>
    if p.remainingSubheaders != 0 then
      some (HeaderCell.mk p.name (p.remainingSubheaders - chargeOf h)
        (p.subheaders ++ [h]) :: ps)
    else
      match attach h ps with
      | some ps' => some (p :: ps')
      | none => none

/-- The `j` loop of lines 67-78: each cell of the row, in order, is attached
to the (cumulatively updated) parent group and removed from the row
(`delete headerGroup[j]`), or kept when no parent is eligible.  Returns the
updated parent group and the cells remaining in the row. -/
def absorbRow (parents : List HeaderCell) :
    List HeaderCell → List HeaderCell × List HeaderCell
  | [] => (parents, [])
  | h :: hs =>
    match attach h parents with
    | some parents' => absorbRow parents' hs
    | none =>
      let r := absorbRow parents hs
      (r.1, h :: r.2)

/-- The outer `i` loop of lines 61-78, processing row groups from last to
first (`i == 0` is skipped); each group absorbs the following group's cells.
Returns the groups as left after absorption, in row order. -/
def absorbAll : List (List HeaderCell) → List (List HeaderCell)
  | [] => []
  | g :: rest =>
    match absorbAll rest with
    | [] => [g]
    | g1 :: rest' =>
      let r := absorbRow g g1
      r.1 :: r.2 :: rest'

/-- The `combinedHeaders` pass of lines 80-87: concatenate what remains of
each row group, in row order (deleted slots are skipped). -/
def buildHeaderForest (groups : List (List (String × Int))) : List HeaderCell :=
  (absorbAll (groups.map (fun g => g.map mkHeaderCell))).flatten

/-- Header extraction from one row: only `th` cells are considered
(line 43), their text normalized and their colspan read (lines 44-54). -/
def headerRowCells (o : ParserOpts) (r : DomRow) : List (String × Int) :=
  (r.cells.filter (fun c => c.tag == CellTag.th)).map
    (fun c => (normalizeKey o c.text, c.colspan))

/-- Lines 39-40 and the whole of `_getHeaders`: header rows are the `thead`
rows, or the table's first row when there are none; then build the forest. -/
def _getHeaders (o : ParserOpts) (t : DomTable) : List HeaderCell :=
  let headerRows :=
    if t.theadRows.isEmpty then (t.theadRows ++ t.tbodyRows).take 1
    else t.theadRows
  buildHeaderForest (headerRows.map (headerRowCells o))

/-- The Row Extractor `_getRows` (lines 92-105): for every `tbody` row, the
trimmed text of its `td` and `th` cells, in document order. -/
def _getRows (t : DomTable) : List (List String) :=
  t.tbodyRows.map (fun r =>
    (r.cells.filter (fun c => c.tag == CellTag.td || c.tag == CellTag.th)).map
      (fun c => (⟨trimWsL c.text.data⟩ : String)))

/-
The JS `mapHeaders` closure of `_mapRowToHeaders` walks the header list,
mutating three things: the shared `row` array (`row.shift()`), the record
under construction, and — on a name collision of a header that has
subheaders — the header's own `name` field.  The embedding threads all three
explicitly and returns the updated header list alongside the record and the
remaining row.
-/

/-- The collision loop of line 112,
`for (let i = 0; fullHeaders[header.name]; i++) header.name += `_${i++}`;`:
while the current name is a truthy key, append `_<i>` and advance `i` by two
(it is incremented both in the body and in the update clause).  The fuel is
structural; `freshKeyName` passes `full.length + 1`, which always suffices:
each continuing iteration's current name is a key of `full`, and the names
strictly grow in length, so they are pairwise distinct and at most
`full.length` iterations can continue (proved below as
`freshKeyName_not_truthy`). -/
def renameLoop (full : Record) : Nat → String → Nat → String
  | 0, name, _ => name
  | fuel + 1, name, i =>
    if vTruthy (recGet full name) then
      renameLoop full fuel (name ++ "_" ++ Nat.repr i) (i + 2)
    else name

def freshKeyName (full : Record) (name : String) : String :=
  renameLoop full (full.length + 1) name 0

/-- JS `row.shift()`: the first element (or `undefined`) and the rest. -/
def shiftRow : List String → Value × List String
  | [] => (Value.undef, [])
  | v :: vs => (Value.str v, vs)

/-- Fueled worker for the `mapHeaders` closure (lines 110-120).  For each
header in order: with subheaders, rename on collision, bind the name to the
recursively built sub-record; without, bind the name to `row.shift()`.
Returns (updated headers, record, remaining row).  The fuel is structural and
decreases on both the descent into `subheaders` and the tail of the list;
`mapHeaders` passes `sizeOf`, which suffices (see `mapHeadersF_congr`). -/
def mapHeadersF : Nat → List HeaderCell → Record → List String →
    List HeaderCell × Record × List String
  | 0, hs, full, row => (hs, full, row)
  | _ + 1, [], full, row => ([], full, row)
  | fuel + 1, HeaderCell.mk n sp subs :: hs, full, row =>
    if subs.length > 0 then
      let n' := freshKeyName full n
      let r1 := mapHeadersF fuel subs [] row
      let r2 := mapHeadersF fuel hs (setKey full n' (Value.obj r1.2.1)) r1.2.2
      (HeaderCell.mk n' sp r1.1 :: r2.1, r2.2)
    else
      let r0 := shiftRow row
      let r2 := mapHeadersF fuel hs (setKey full n r0.1) r0.2
      (HeaderCell.mk n sp subs :: r2.1, r2.2)

/-- The `mapHeaders` closure, with sufficient fuel. -/
def mapHeaders (hs : List HeaderCell) (full : Record) (row : List String) :
    List HeaderCell × Record × List String :=
  mapHeadersF (sizeOf hs) hs full row

/-- The number of leaf positions of a header forest: a cell with subheaders
contributes its subtree's leaves, a childless cell one.  This is the number
of `row.shift()` calls the mapper makes.  Fueled like `mapHeadersF`. -/
def leafCountF : Nat → List HeaderCell → Nat
  | 0, _ => 0
  | _ + 1, [] => 0
  | fuel + 1, HeaderCell.mk _ _ subs :: hs =>
    (if subs.length > 0 then leafCountF fuel subs else 1) + leafCountF fuel hs

/-- The number of leaf positions, with sufficient fuel. -/
def leafCount (hs : List HeaderCell) : Nat :=
  leafCountF (sizeOf hs) hs

/-
The spec reads the mapper's treatment of a short row as: a missing cell is
the defined marker `undefined`, for every header tree.  The comparison
rendering below runs the same traversal on a row of `Value`s — the flat row
pre-padded with that marker — and `C7_short_row_binds_undef` proves the
code's mapper equal to it on every forest, starting record and row.
-/

/-- `row.shift()` on a row of values. -/
def shiftRowV : List Value → Value × List Value
  | [] => (Value.undef, [])
  | v :: vs => (v, vs)

/-- The spec-worded comparison mapper: the traversal of `mapHeadersF`, run on
a row of `Value`s (the flat row padded with the missing marker
`Value.undef`). -/
def mapHeadersVF : Nat → List HeaderCell → Record → List Value →
    List HeaderCell × Record × List Value
  | 0, hs, full, row => (hs, full, row)
  | _ + 1, [], full, row => ([], full, row)
  | fuel + 1, HeaderCell.mk n sp subs :: hs, full, row =>
    if subs.length > 0 then
      let n' := freshKeyName full n
      let r1 := mapHeadersVF fuel subs [] row
      let r2 := mapHeadersVF fuel hs (setKey full n' (Value.obj r1.2.1)) r1.2.2
      (HeaderCell.mk n' sp r1.1 :: r2.1, r2.2)
    else
      let r0 := shiftRowV row
      let r2 := mapHeadersVF fuel hs (setKey full n r0.1) r0.2
      (HeaderCell.mk n sp subs :: r2.1, r2.2)

/-- The comparison mapper, with sufficient fuel. -/
def mapHeadersV (hs : List HeaderCell) (full : Record) (row : List Value) :
    List HeaderCell × Record × List Value :=
  mapHeadersVF (sizeOf hs) hs full row

/-- The trailing loop of lines 121-127: remaining row values are assigned to
keys `unlabelled_<i>`, `i` counting from 0. -/
def addUnlabelled (r : Record) : Nat → List String → Record
  | _, [] => r
  | i, v :: vs =>
    addUnlabelled (setKey r ("unlabelled_" ++ Nat.repr i) (Value.str v)) (i + 1) vs

/-- The entries the trailing loop appends when none of its keys is taken. -/
def unlabelledEntries : Nat → List String → Record
  | _, [] => []
  | i, v :: vs => ("unlabelled_" ++ Nat.repr i, Value.str v) :: unlabelledEntries (i + 1) vs

/-- `_mapRowToHeaders` (lines 108-128): map the row through the header tree,
then place leftover values under `unlabelled_<i>` keys.  (The JS function
returns only the record; the header-list mutations persist in its argument,
which `_mapRowsToHeaders` threads through.) -/
def _mapRowToHeaders (hs : List HeaderCell) (row : List String) : Record :=
  addUnlabelled (mapHeaders hs [] row).2.1 0 (mapHeaders hs [] row).2.2

/-- `_mapRowsToHeaders` (lines 131-138): map each row against the same header
list object — including any name mutations left by earlier rows. -/
def _mapRowsToHeaders (hs : List HeaderCell) : List (List String) → List Record
  | [] => []
  | row :: rows =>
    addUnlabelled (mapHeaders hs [] row).2.1 0 (mapHeaders hs [] row).2.2 ::
      _mapRowsToHeaders (mapHeaders hs [] row).1 rows

/-- `_parseTable` (lines 141-143). -/
def _parseTable (o : ParserOpts) (t : DomTable) : List Record :=
  _mapRowsToHeaders (_getHeaders o t) (_getRows t)

/-
The spec describes the inner absorption scan as: find the first parent cell
satisfying an eligibility test on `remainingSpan`, decrement it by
`max(1, number of the attached cell's own children)`, append the cell to its
children and remove it from its row.  The following definitions follow those
words, parameterised by the eligibility test, so that the claimed test
(`> 0`) and the test the code uses (`≠ 0`) can both be compared against the
embedding.
-/

/-- Index of the first list element satisfying `p`, scanning in order. -/
def firstIdxWhere (p : HeaderCell → Bool) : List HeaderCell → Option Nat
  | [] => none
  | h :: t => if p h then some 0 else (firstIdxWhere p t).map (· + 1)

/-- One absorption step as the spec words it: the first eligible parent is
charged `max 1 (number of children)` and receives the cell. -/
def specAttach (elig : Int → Bool) (h : HeaderCell) (parents : List HeaderCell) :
    Option (List HeaderCell) :=
  match firstIdxWhere (fun p => elig p.remainingSubheaders) parents with
  | none => none
  | some k =>
    match parents.get? k with
    | none => none
    | some p =>
      some (parents.set k
        (HeaderCell.mk p.name
          (p.remainingSubheaders - max 1 (h.subheaders.length : Int))
          (p.subheaders ++ [h])))

/-- A row absorbed cell by cell, as the spec words it. -/
def specAbsorbRow (elig : Int → Bool) (parents : List HeaderCell) :
    List HeaderCell → List HeaderCell × List HeaderCell
  | [] => (parents, [])
  | h :: hs =>
    match specAttach elig h parents with
    | some parents' => specAbsorbRow elig parents' hs
    | none =>
      let r := specAbsorbRow elig parents hs
      (r.1, h :: r.2)

/-- Row groups processed from last to first, as the spec words it. -/
def specAbsorbAll (elig : Int → Bool) : List (List HeaderCell) → List (List HeaderCell)
  | [] => []
  | g :: rest =>
    match specAbsorbAll elig rest with
    | [] => [g]
    | g1 :: rest' =>
      let r := specAbsorbRow elig g g1
      r.1 :: r.2 :: rest'

/-- The whole build as the spec words it. -/
def specBuildForest (elig : Int → Bool) (groups : List (List (String × Int))) :
    List HeaderCell :=
  (specAbsorbAll elig (groups.map (fun g => g.map mkHeaderCell))).flatten

/-- Two header forests with identical spans and children structure throughout;
names are unconstrained.  `SameSkel new old` is what survives of the claim
that the Row Mapper leaves header cells unchanged. -/
inductive SameSkel : List HeaderCell → List HeaderCell → Prop where
  | nil : SameSkel [] []
  | cons (n n' : String) (sp : Int) (subs subs' t t' : List HeaderCell) :
      SameSkel subs' subs → SameSkel t' t →
      SameSkel (HeaderCell.mk n' sp subs' :: t') (HeaderCell.mk n sp subs :: t)

/-- Pointwise comparison of a parent group before and after absorption steps:
same length, same names, and `remainingSpan` never increased. -/
def spanLe : List HeaderCell → List HeaderCell → Prop
  | [], [] => True
  | q :: qs, p :: ps =>
    q.name = p.name ∧ q.remainingSubheaders ≤ p.remainingSubheaders ∧ spanLe qs ps
  | _, _ => False

/-- A table with every body cell's tag rewritten by `f` (text and colspan
kept). -/
def retagTable (f : CellTag → CellTag) (t : DomTable) : DomTable :=
  DomTable.mk t.theadRows
    (t.tbodyRows.map (fun r =>
      DomRow.mk (r.cells.map (fun c => DomCell.mk (f c.tag) c.text c.colspan))))

/-- Whether every character is non-whitespace. -/
def allNonWs (l : List Char) : Bool :=
  l.all (fun c => !isWs c)

/-- The whitespace status of a list's first character, if any. -/
def headWs (l : List Char) : Option Bool :=
  l.head?.map isWs

/-- The whitespace status of a list's last character, if any. -/
def lastWs (l : List Char) : Option Bool :=
  l.getLast?.map isWs

/-- Whether no two adjacent characters are both whitespace. -/
def noAdjWs : List Char → Bool
  | [] => true
  | [_] => true
  | c1 :: c2 :: rest => !(isWs c1 && isWs c2) && noAdjWs (c2 :: rest)

/-! ## Theorems -/

example : normalizeKey {} ⟨"  First  Name ".data⟩ = "first_name" := by decide

theorem val10_append_single (l : List Char) (c : Char) :
    val10 (l ++ [c]) = 10 * val10 l + (c.toNat - 48) := by
  simp [val10, List.foldl_append]

theorem digitChar_toNat {m : Nat} (h : m < 10) :
    (Nat.digitChar m).toNat = 48 + m := by
  interval_cases m <;> rfl

theorem toDigitsCore_acc (b : Nat) :
    ∀ (f n : Nat) (l : List Char),
      Nat.toDigitsCore b f n l = Nat.toDigitsCore b f n [] ++ l := by
  intro f
  induction f with
  | zero => intro n l; simp [Nat.toDigitsCore]
  | succ f ih =>
    intro n l
    simp only [Nat.toDigitsCore]
    by_cases h : n / b = 0
    · simp [h]
    · simp only [h, if_false]
      rw [ih (n / b) (Nat.digitChar (n % b) :: l),
        ih (n / b) [Nat.digitChar (n % b)]]
      simp

theorem val10_toDigitsCore :
    ∀ f n : Nat, 0 < f → n < 10 ^ f →
      val10 (Nat.toDigitsCore 10 f n []) = n := by
  intro f
  induction f with
  | zero => omega
  | succ f ih =>
    intro n _ hlt
    simp only [Nat.toDigitsCore]
    by_cases h : n / 10 = 0
    · have hn : n < 10 := by omega
      have hmod : n % 10 = n := Nat.mod_eq_of_lt hn
      rw [if_pos h]
      simp only [val10, List.foldl, hmod, digitChar_toNat hn]
      omega
    · have hf : 0 < f := by
        rcases Nat.eq_zero_or_pos f with hf0 | hf0
        · subst hf0; omega
        · exact hf0
      have hdiv : n / 10 < 10 ^ f := by
        rw [Nat.div_lt_iff_lt_mul (by omega)]
        calc n < 10 ^ (f + 1) := hlt
          _ = 10 ^ f * 10 := by ring
      rw [if_neg h, toDigitsCore_acc 10 f (n / 10) [Nat.digitChar (n % 10)],
        val10_append_single, ih (n / 10) hf hdiv,
        digitChar_toNat (Nat.mod_lt n (by omega))]
      omega

theorem val10_repr (n : Nat) : val10 (Nat.repr n).data = n := by
  have h1 : (Nat.repr n).data = Nat.toDigitsCore 10 (n + 1) n [] := rfl
  rw [h1]
  exact val10_toDigitsCore (n + 1) n (by omega)
    (lt_of_lt_of_le (Nat.lt_pow_self (by omega) n)
      (Nat.pow_le_pow_right (by omega) (by omega)))

theorem natRepr_inj {n m : Nat} (h : Nat.repr n = Nat.repr m) : n = m := by
  have := congrArg (fun s => val10 s.data) h
  simpa [val10_repr] using this

theorem string_append_inj {s : String} {t u : String}
    (h : s ++ t = s ++ u) : t = u := by
  have hd : s.data ++ t.data = s.data ++ u.data := congrArg String.data h
  have h2 := List.append_cancel_left hd
  cases t; cases u
  exact congrArg String.mk h2

theorem setKey_of_recGet_none {r : Record} {k : String} {v : Value}
    (h : recGet r k = none) : setKey r k v = r ++ [(k, v)] := by
  induction r with
  | nil => rfl
  | cons p rest ih =>
    obtain ⟨k', v'⟩ := p
    simp only [recGet] at h
    by_cases hk : (k' == k) = true
    · simp [hk] at h
    · simp only [setKey, if_neg hk, List.cons_append]
      exact congrArg (List.cons (k', v')) (ih (by simpa [hk] using h))

theorem recGet_append_none {r : Record} {k k' : String} {v' : Value}
    (h : recGet r k = none) (hne : ¬(k' = k)) :
    recGet (r ++ [(k', v')]) k = none := by
  induction r with
  | nil => simp [recGet, hne]
  | cons p rest ih =>
    obtain ⟨k₁, v₁⟩ := p
    simp only [recGet, List.cons_append] at h ⊢
    by_cases hk : (k₁ == k) = true
    · simp [hk] at h
    · simp only [if_neg hk] at h ⊢
      exact ih h

theorem sizeOf_list_pos (hs : List HeaderCell) : 0 < sizeOf hs := by
  cases hs <;> simp_arith

theorem mapHeadersF_congr :
    ∀ (f1 f2 : Nat) (hs : List HeaderCell) (full : Record) (row : List String),
      sizeOf hs ≤ f1 → sizeOf hs ≤ f2 →
      mapHeadersF f1 hs full row = mapHeadersF f2 hs full row := by
  intro f1
  induction f1 with
  | zero =>
    intro f2 hs full row h1 _
    exact absurd h1 (by have := sizeOf_list_pos hs; omega)
  | succ f1 ih =>
    intro f2 hs full row h1 h2
    match f2, hs with
    | 0, hs =>
      exact absurd h2 (by have := sizeOf_list_pos hs; omega)
    | f2 + 1, [] => rfl
    | f2 + 1, HeaderCell.mk n sp subs :: hs =>
      have hsubs : sizeOf subs + 1 ≤ sizeOf (HeaderCell.mk n sp subs :: hs) := by
        simp_arith
      have htail : sizeOf hs + 1 ≤ sizeOf (HeaderCell.mk n sp subs :: hs) := by
        have := sizeOf_list_pos subs
        simp_arith
      simp only [mapHeadersF]
      by_cases hlen : subs.length > 0
      · simp only [hlen, if_true]
        rw [ih f2 subs [] row (by omega) (by omega)]
        rw [ih f2 hs _ _ (by omega) (by omega)]
      · simp only [hlen, if_false]
        rw [ih f2 hs _ _ (by omega) (by omega)]

theorem mapHeaders_nil (full : Record) (row : List String) :
    mapHeaders [] full row = ([], full, row) := rfl

theorem mapHeaders_leaf (n : String) (sp : Int) (hs : List HeaderCell)
    (full : Record) (row : List String) :
    mapHeaders (HeaderCell.mk n sp [] :: hs) full row =
      (HeaderCell.mk n sp [] ::
        (mapHeaders hs (setKey full n (shiftRow row).1) (shiftRow row).2).1,
       (mapHeaders hs (setKey full n (shiftRow row).1) (shiftRow row).2).2) := by
  have hpos : 0 < sizeOf (HeaderCell.mk n sp [] :: hs) :=
    sizeOf_list_pos _
  obtain ⟨k, hk⟩ : ∃ k, sizeOf (HeaderCell.mk n sp [] :: hs) = k + 1 :=
    ⟨sizeOf (HeaderCell.mk n sp [] :: hs) - 1, by omega⟩
  have htail : sizeOf hs ≤ k := by
    have : sizeOf (HeaderCell.mk n sp [] :: hs) = 1 + (1 + sizeOf n + sizeOf sp + 1) + sizeOf hs := by
      simp_arith
    omega
  unfold mapHeaders
  rw [hk]
  simp only [mapHeadersF, List.length_nil, gt_iff_lt, lt_self_iff_false, if_false]
  rw [mapHeadersF_congr k (sizeOf hs) hs _ _ htail (le_refl _)]

theorem mapHeaders_node (n : String) (sp : Int) (s0 : HeaderCell)
    (ss : List HeaderCell) (hs : List HeaderCell)
    (full : Record) (row : List String) :
    mapHeaders (HeaderCell.mk n sp (s0 :: ss) :: hs) full row =
      (HeaderCell.mk (freshKeyName full n) sp
          (mapHeaders (s0 :: ss) [] row).1 ::
        (mapHeaders hs
          (setKey full (freshKeyName full n)
            (Value.obj (mapHeaders (s0 :: ss) [] row).2.1))
          (mapHeaders (s0 :: ss) [] row).2.2).1,
       (mapHeaders hs
          (setKey full (freshKeyName full n)
            (Value.obj (mapHeaders (s0 :: ss) [] row).2.1))
          (mapHeaders (s0 :: ss) [] row).2.2).2) := by
  obtain ⟨k, hk⟩ : ∃ k, sizeOf (HeaderCell.mk n sp (s0 :: ss) :: hs) = k + 1 :=
    ⟨sizeOf (HeaderCell.mk n sp (s0 :: ss) :: hs) - 1,
      by have := sizeOf_list_pos (HeaderCell.mk n sp (s0 :: ss) :: hs); omega⟩
  have hsz : sizeOf (HeaderCell.mk n sp (s0 :: ss) :: hs) =
      1 + (1 + sizeOf n + sizeOf sp + sizeOf (s0 :: ss)) + sizeOf hs := by
    simp_arith
  have hsubs : sizeOf (s0 :: ss) ≤ k := by omega
  have htail : sizeOf hs ≤ k := by
    have := sizeOf_list_pos (s0 :: ss)
    omega
  unfold mapHeaders
  rw [hk]
  simp only [mapHeadersF, List.length_cons, gt_iff_lt, Nat.succ_pos, if_true]
  rw [mapHeadersF_congr k (sizeOf (s0 :: ss)) (s0 :: ss) [] row hsubs (le_refl _)]
  rw [mapHeadersF_congr k (sizeOf hs) hs _ _ htail (le_refl _)]

example :
    _mapRowToHeaders [HeaderCell.mk "a" 0 [], HeaderCell.mk "b" 0 []] ["1"] =
      [("a", Value.str "1"), ("b", Value.undef)] := rfl

example :
    _mapRowToHeaders [HeaderCell.mk "a" 2 [HeaderCell.mk "b" 0 [], HeaderCell.mk "c" 0 []]]
      ["1", "2"] =
      [("a", Value.obj [("b", Value.str "1"), ("c", Value.str "2")])] := rfl

example :
    buildHeaderForest [[("a", 2)], [("b", 0), ("c", 0)]] =
      [HeaderCell.mk "a" 0 [HeaderCell.mk "b" 0 [], HeaderCell.mk "c" 0 []]] := rfl

example : buildHeaderForest [[("x", 0), ("x", 0)]] =
    [HeaderCell.mk "x" 0 [], HeaderCell.mk "x" 0 []] := rfl

theorem sameSkel_refl : ∀ hs : List HeaderCell, SameSkel hs hs
  | [] => .nil
  | HeaderCell.mk n sp subs :: t =>
    .cons n n sp subs subs t t (sameSkel_refl subs) (sameSkel_refl t)
termination_by hs => sizeOf hs
decreasing_by all_goals simp_arith

theorem spanLe_refl : ∀ ps : List HeaderCell, spanLe ps ps
  | [] => trivial
  | _ :: ps => ⟨rfl, le_refl _, spanLe_refl ps⟩

theorem spanLe_trans : ∀ {qs ps rs : List HeaderCell},
    spanLe qs ps → spanLe ps rs → spanLe qs rs
  | [], [], [], _, _ => trivial
  | _ :: _, _ :: _, _ :: _, ⟨h1, h2, h3⟩, ⟨g1, g2, g3⟩ =>
    ⟨h1.trans g1, h2.trans g2, spanLe_trans h3 g3⟩

theorem chargeOf_eq_max (h : HeaderCell) :
    chargeOf h = max 1 (h.subheaders.length : Int) := by
  cases h with
  | mk n sp subs =>
    cases subs with
    | nil => simp [chargeOf, HeaderCell.subheaders]
    | cons s ss =>
      simp only [chargeOf, HeaderCell.subheaders, List.isEmpty_cons, if_false,
        Bool.false_eq_true]
      rw [max_eq_right]
      exact_mod_cast Nat.succ_le_succ (Nat.zero_le _)

theorem specAttach_cons_pos (elig : Int → Bool) (h p : HeaderCell)
    (ps : List HeaderCell) (hp : elig p.remainingSubheaders = true) :
    specAttach elig h (p :: ps) =
      some (HeaderCell.mk p.name
        (p.remainingSubheaders - max 1 (h.subheaders.length : Int))
        (p.subheaders ++ [h]) :: ps) := by
  simp [specAttach, firstIdxWhere, hp]

theorem specAttach_cons_neg (elig : Int → Bool) (h p : HeaderCell)
    (ps : List HeaderCell) (hp : elig p.remainingSubheaders = false) :
    specAttach elig h (p :: ps) = (specAttach elig h ps).map (p :: ·) := by
  unfold specAttach
  rw [firstIdxWhere]
  simp only [hp, Bool.false_eq_true, if_false]
  cases hfi : firstIdxWhere (fun q => elig q.remainingSubheaders) ps with
  | none => simp
  | some k =>
    simp only [Option.map_some']
    cases hg : ps[k]? with
    | none => simp [hg]
    | some q => simp [hg]

theorem attach_eq_specAttach (h : HeaderCell) :
    ∀ ps : List HeaderCell, attach h ps = specAttach (fun x => x != 0) h ps := by
  intro ps
  induction ps with
  | nil => rfl
  | cons p ps ih =>
    by_cases hp : (p.remainingSubheaders != 0) = true
    · rw [specAttach_cons_pos _ _ _ _ hp]
      simp [attach, hp, chargeOf_eq_max]
    · have hp' : (p.remainingSubheaders != 0) = false := by
        simpa using hp
      rw [specAttach_cons_neg _ _ _ _ hp', ← ih]
      simp only [attach, hp', Bool.false_eq_true, if_false]
      cases attach h ps <;> rfl

theorem absorbRow_eq_spec :
    ∀ row parents : List HeaderCell,
      absorbRow parents row = specAbsorbRow (fun x => x != 0) parents row := by
  intro row
  induction row with
  | nil => intro parents; rfl
  | cons h hs ih =>
    intro parents
    simp only [absorbRow, specAbsorbRow, attach_eq_specAttach]
    cases specAttach (fun x => x != 0) h parents with
    | some ps' => simp [ih]
    | none => simp [ih]

theorem absorbAll_eq_spec :
    ∀ groups : List (List HeaderCell),
      absorbAll groups = specAbsorbAll (fun x => x != 0) groups := by
  intro groups
  induction groups with
  | nil => rfl
  | cons g rest ih =>
    simp only [absorbAll, specAbsorbAll, ih]
    cases specAbsorbAll (fun x => x != 0) rest with
    | nil => rfl
    | cons g1 rest' => simp [absorbRow_eq_spec]

theorem chargeOf_pos (h : HeaderCell) : 1 ≤ chargeOf h := by
  rw [chargeOf_eq_max]
  exact le_max_left _ _

theorem attach_spanLe (h : HeaderCell) :
    ∀ {ps ps' : List HeaderCell}, attach h ps = some ps' → spanLe ps' ps := by
  intro ps
  induction ps with
  | nil => intro ps' hps; simp [attach] at hps
  | cons p ps ih =>
    intro ps' hps
    by_cases hp : (p.remainingSubheaders != 0) = true
    · simp only [attach, hp, if_true, Option.some.injEq] at hps
      subst hps
      refine ⟨rfl, ?_, spanLe_refl ps⟩
      have := chargeOf_pos h
      simp only [HeaderCell.remainingSubheaders]
      omega
    · have hp' : (p.remainingSubheaders != 0) = false := by simpa using hp
      simp only [attach, hp', Bool.false_eq_true, if_false] at hps
      cases hrec : attach h ps with
      | none => rw [hrec] at hps; exact absurd hps (by simp)
      | some ps'' =>
        rw [hrec] at hps
        simp only [Option.some.injEq] at hps
        subst hps
        exact ⟨rfl, le_refl _, ih hrec⟩

theorem absorbRow_spanLe :
    ∀ (row parents : List HeaderCell), spanLe (absorbRow parents row).1 parents := by
  intro row
  induction row with
  | nil => intro parents; exact spanLe_refl parents
  | cons h hs ih =>
    intro parents
    simp only [absorbRow]
    cases hat : attach h parents with
    | some parents' => exact spanLe_trans (ih parents') (attach_spanLe h hat)
    | none => exact ih parents

theorem mapHeadersF_sameSkel :
    ∀ (fuel : Nat) (hs : List HeaderCell) (full : Record) (row : List String),
      SameSkel (mapHeadersF fuel hs full row).1 hs := by
  intro fuel
  induction fuel with
  | zero => intro hs full row; exact sameSkel_refl hs
  | succ fuel ih =>
    intro hs full row
    match hs with
    | [] => exact .nil
    | HeaderCell.mk n sp subs :: t =>
      simp only [mapHeadersF]
      by_cases hlen : subs.length > 0
      · simp only [hlen, if_true]
        exact .cons n _ sp subs _ t _ (ih subs [] row) (ih t _ _)
      · simp only [hlen, if_false]
        exact .cons n n sp subs subs t _ (sameSkel_refl subs) (ih t _ _)

theorem mapHeaders_leafRow :
    ∀ (ps : List (String × Int)) (full : Record) (row : List String),
      (∀ n, n ∈ ps.map Prod.fst → recGet full n = none) →
      (ps.map Prod.fst).Nodup →
      mapHeaders (ps.map mkHeaderCell) full row =
        (ps.map mkHeaderCell,
         full ++ (ps.map Prod.fst).zip
           (row.map Value.str ++ List.replicate (ps.length - row.length) Value.undef),
         row.drop ps.length) := by
  intro ps
  induction ps with
  | nil =>
    intro full row _ _
    simp [mapHeaders_nil]
  | cons p ps ih =>
    obtain ⟨n, sp⟩ := p
    intro full row hfresh hnodup
    rw [List.map_cons] at hnodup
    have hn_notmem : n ∉ ps.map Prod.fst := (List.nodup_cons.mp hnodup).1
    have hnd : (ps.map Prod.fst).Nodup := (List.nodup_cons.mp hnodup).2
    have hfresh0 : recGet full n = none := hfresh n (by simp)
    cases row with
    | nil =>
      have hf : ∀ n', n' ∈ ps.map Prod.fst →
          recGet (full ++ [(n, Value.undef)]) n' = none := by
        intro n' hm
        exact recGet_append_none (hfresh n' (by simp [hm]))
          (fun heq => hn_notmem (heq ▸ hm))
      simp only [List.map_cons, mkHeaderCell, mapHeaders_leaf, shiftRow]
      rw [setKey_of_recGet_none hfresh0, ih _ [] hf hnd]
      simp [List.replicate_succ]
    | cons v vs =>
      have hf : ∀ n', n' ∈ ps.map Prod.fst →
          recGet (full ++ [(n, Value.str v)]) n' = none := by
        intro n' hm
        exact recGet_append_none (hfresh n' (by simp [hm]))
          (fun heq => hn_notmem (heq ▸ hm))
      simp only [List.map_cons, mkHeaderCell, mapHeaders_leaf, shiftRow]
      rw [setKey_of_recGet_none hfresh0, ih _ vs hf hnd]
      simp [Nat.succ_sub_succ]

theorem addUnlabelled_append :
    ∀ (vs : List String) (r : Record) (k : Nat),
      (∀ i, i < vs.length → recGet r ("unlabelled_" ++ Nat.repr (k + i)) = none) →
      addUnlabelled r k vs = r ++ unlabelledEntries k vs := by
  intro vs
  induction vs with
  | nil => intro r k _; simp [addUnlabelled, unlabelledEntries]
  | cons v vs ih =>
    intro r k hfresh
    have h0 : recGet r ("unlabelled_" ++ Nat.repr k) = none := by
      have := hfresh 0 (by simp)
      simpa using this
    have hf : ∀ i, i < vs.length →
        recGet (r ++ [("unlabelled_" ++ Nat.repr k, Value.str v)])
          ("unlabelled_" ++ Nat.repr (k + 1 + i)) = none := by
      intro i hi
      apply recGet_append_none
      · have h1 := hfresh (i + 1) (by simpa using Nat.succ_lt_succ hi)
        have harith : k + (i + 1) = k + 1 + i := by omega
        rwa [harith] at h1
      · intro heq
        have h2 := natRepr_inj (string_append_inj heq)
        omega
    simp only [addUnlabelled, unlabelledEntries]
    rw [setKey_of_recGet_none h0, ih _ (k + 1) hf]
    simp

/-- C1, counterexample: mapping the duplicate-leaf header row
`[{"x",0},{"x",0}]` against `["1","2"]` does not produce
`{x: "1", x_0: "2"}` — the dedup loop runs only for headers with subheaders,
so the second leaf assignment overwrites the first. -/
theorem C1_counterexample :
    _mapRowToHeaders [HeaderCell.mk "x" 0 [], HeaderCell.mk "x" 0 []] ["1", "2"] ≠
      [("x", Value.str "1"), ("x_0", Value.str "2")] := by
  intro h
  exact absurd (congrArg List.length h) (by decide)

/-- C1, amended: duplicate sibling names are disambiguated only for headers
that have children; duplicate leaf names overwrite, so `[{n,0},{n,0}]` against
`[v1,v2]` yields `{n: v2}`, while two nested headers named `x` yield keys
`x` and `x_0`. -/
theorem C1_duplicate_names :
    (∀ n v1 v2 : String,
      _mapRowToHeaders [HeaderCell.mk n 0 [], HeaderCell.mk n 0 []] [v1, v2] =
        [(n, Value.str v2)]) ∧
    _mapRowToHeaders
        [HeaderCell.mk "x" 0 [HeaderCell.mk "a" 0 []],
         HeaderCell.mk "x" 0 [HeaderCell.mk "b" 0 []]] ["1", "2"] =
      [("x", Value.obj [("a", Value.str "1")]),
       ("x_0", Value.obj [("b", Value.str "2")])] := by
  constructor
  · intro n v1 v2
    simp [_mapRowToHeaders, mapHeaders_leaf, mapHeaders_nil, shiftRow, setKey,
      addUnlabelled]
  · rfl

/-- C2, counterexample: on the header rows
`[[("a",1),("e",5)], [("b",2),("x",0)], [("c",0),("d",0)]]` the code's build
differs from the claimed algorithm in which only parents with
`remainingSpan > 0` are eligible: after `b` (carrying two children) drives
`a`'s span to `-1`, the code still attaches `x` to `a` (non-zero is truthy),
while the claimed rule would attach `x` to `e`. -/
theorem C2_counterexample :
    (buildHeaderForest [[("a", 1), ("e", 5)], [("b", 2), ("x", 0)],
        [("c", 0), ("d", 0)]]).map HeaderCell.remainingSubheaders ≠
      (specBuildForest (fun z => decide (0 < z))
        [[("a", 1), ("e", 5)], [("b", 2), ("x", 0)],
         [("c", 0), ("d", 0)]]).map HeaderCell.remainingSubheaders := by
  decide

/-- C2, amended: the build is exactly the claimed absorption pass — rows from
last down to 1, first eligible parent in order, decrement by
`max(1, number of the attached cell's children)`, append and remove, leave in
place when no parent is eligible — with eligibility `remainingSpan ≠ 0`
(JavaScript truthiness, negative spans included) instead of
`remainingSpan > 0`. -/
theorem C2_absorption_step (groups : List (List (String × Int))) :
    buildHeaderForest groups = specBuildForest (fun z => z != 0) groups := by
  unfold buildHeaderForest specBuildForest
  rw [absorbAll_eq_spec]

/-- C3, counterexample: on header rows `[[("a",1)], [("b",2)], [("c",0),("d",0)]]`
the cell `a` ends with `remainingSpan = -1`: attaching `b` (which carries two
children) charges 2 against a remaining span of 1. -/
theorem C3_counterexample :
    ((buildHeaderForest [[("a", 1)], [("b", 2)], [("c", 0), ("d", 0)]]).map
        HeaderCell.remainingSubheaders).all (fun z => decide (0 ≤ z)) = false := by
  decide

/-- C3, amended: `remainingSpan` starts at the declared column-span (0 if
absent) and is never increased by an absorption step — each attachment only
decrements the chosen parent — but it may become negative. -/
theorem C3_span_monotone :
    (∀ p : String × Int, (mkHeaderCell p).remainingSubheaders = p.2) ∧
    ∀ row parents : List HeaderCell, spanLe (absorbRow parents row).1 parents :=
  ⟨fun _ => rfl, absorbRow_spanLe⟩

/-- C4: evaluating the parser on a table without a `thead`
(`<table><tr><th>Name</th></tr><tr><td>Bob</td></tr></table>`, whose rows the
HTML parser wraps in an implied `tbody`): the first row supplies the header,
but `_getRows` reads all `tbody` rows, so the header row itself is also
emitted as a data record — the output is not just the subsequent rows. -/
theorem C4_header_row_also_data_row :
    _parseTable {} (DomTable.mk []
        [DomRow.mk [DomCell.mk CellTag.th "Name" 0],
         DomRow.mk [DomCell.mk CellTag.td "Bob" 0]]) =
      [[("name", Value.str "Name")], [("name", Value.str "Bob")]] ∧
    _parseTable {} (DomTable.mk []
        [DomRow.mk [DomCell.mk CellTag.th "Name" 0],
         DomRow.mk [DomCell.mk CellTag.td "Bob" 0]]) ≠
      [[("name", Value.str "Bob")]] := by
  constructor
  · rfl
  · intro h
    exact absurd (congrArg List.length h) (by decide)

/-- C6, counterexample: mapping a row against two nested headers both named
`x` mutates the second header's `name` to `x_0` — the header cells are not
left unchanged by the Row Mapper. -/
theorem C6_counterexample :
    ((mapHeaders
        [HeaderCell.mk "x" 0 [HeaderCell.mk "a" 0 []],
         HeaderCell.mk "x" 0 [HeaderCell.mk "b" 0 []]] [] ["1", "2"]).1).map
        HeaderCell.name ≠
      ([HeaderCell.mk "x" 0 [HeaderCell.mk "a" 0 []],
        HeaderCell.mk "x" 0 [HeaderCell.mk "b" 0 []]]).map HeaderCell.name := by
  decide

/-- C6, amended: the Row Mapper leaves every header cell's `remainingSpan` and
children skeleton unchanged (recursively: same list lengths, same spans, same
nesting), though it may rewrite the `name` of a header that has children when
its name collides with an existing key. -/
theorem C6_mapper_preserves_skeleton
    (hs : List HeaderCell) (full : Record) (row : List String) :
    SameSkel (mapHeaders hs full row).1 hs :=
  mapHeadersF_sameSkel (sizeOf hs) hs full row

theorem leafCountF_congr :
    ∀ (f1 f2 : Nat) (hs : List HeaderCell), sizeOf hs ≤ f1 → sizeOf hs ≤ f2 →
      leafCountF f1 hs = leafCountF f2 hs := by
  intro f1
  induction f1 with
  | zero =>
    intro f2 hs h1 _
    exact absurd h1 (by have := sizeOf_list_pos hs; omega)
  | succ f1 ih =>
    intro f2 hs h1 h2
    match f2, hs with
    | 0, hs =>
      exact absurd h2 (by have := sizeOf_list_pos hs; omega)
    | f2 + 1, [] => rfl
    | f2 + 1, HeaderCell.mk n sp subs :: hs =>
      have hsubs : sizeOf subs + 1 ≤ sizeOf (HeaderCell.mk n sp subs :: hs) := by
        simp_arith
      have htail : sizeOf hs + 1 ≤ sizeOf (HeaderCell.mk n sp subs :: hs) := by
        have := sizeOf_list_pos subs
        simp_arith
      simp only [leafCountF]
      by_cases hlen : subs.length > 0
      · simp only [hlen, if_true]
        rw [ih f2 subs (by omega) (by omega), ih f2 hs (by omega) (by omega)]
      · simp only [hlen, if_false]
        rw [ih f2 hs (by omega) (by omega)]

theorem leafCount_nil : leafCount [] = 0 := rfl

theorem leafCount_cons (n : String) (sp : Int) (subs hs : List HeaderCell) :
    leafCount (HeaderCell.mk n sp subs :: hs) =
      (if subs.length > 0 then leafCount subs else 1) + leafCount hs := by
  obtain ⟨k, hk⟩ : ∃ k, sizeOf (HeaderCell.mk n sp subs :: hs) = k + 1 :=
    ⟨sizeOf (HeaderCell.mk n sp subs :: hs) - 1,
      by have := sizeOf_list_pos (HeaderCell.mk n sp subs :: hs); omega⟩
  have hsz : sizeOf (HeaderCell.mk n sp subs :: hs) =
      1 + (1 + sizeOf n + sizeOf sp + sizeOf subs) + sizeOf hs := by
    simp_arith
  have hsubs : sizeOf subs ≤ k := by omega
  have htail : sizeOf hs ≤ k := by
    have := sizeOf_list_pos subs
    omega
  unfold leafCount
  rw [hk]
  simp only [leafCountF]
  by_cases hlen : subs.length > 0
  · simp only [hlen, if_true]
    rw [leafCountF_congr k (sizeOf subs) subs hsubs (le_refl _),
      leafCountF_congr k (sizeOf hs) hs htail (le_refl _)]
  · simp only [hlen, if_false]
    rw [leafCountF_congr k (sizeOf hs) hs htail (le_refl _)]

/-- The mapper's leftover row: exactly one `row.shift()` happens per leaf
position, so what remains — for every forest, record and row — is
`row.drop (leafCount hs)`. -/
theorem mapHeadersF_leftover :
    ∀ (fuel : Nat) (hs : List HeaderCell) (full : Record) (row : List String),
      sizeOf hs ≤ fuel →
      (mapHeadersF fuel hs full row).2.2 = row.drop (leafCount hs) := by
  intro fuel
  induction fuel with
  | zero =>
    intro hs full row h1
    exact absurd h1 (by have := sizeOf_list_pos hs; omega)
  | succ fuel ih =>
    intro hs full row h1
    match hs with
    | [] => simp [mapHeadersF, leafCount_nil]
    | HeaderCell.mk n sp subs :: hs =>
      have hsubs : sizeOf subs + 1 ≤ sizeOf (HeaderCell.mk n sp subs :: hs) := by
        simp_arith
      have htail : sizeOf hs + 1 ≤ sizeOf (HeaderCell.mk n sp subs :: hs) := by
        have := sizeOf_list_pos subs
        simp_arith
      rw [leafCount_cons]
      simp only [mapHeadersF]
      by_cases hlen : subs.length > 0
      · simp only [hlen, if_true]
        rw [ih hs _ _ (by omega), ih subs [] row (by omega), List.drop_drop,
          Nat.add_comm]
      · simp only [hlen, if_false]
        rw [ih hs _ _ (by omega)]
        cases row with
        | nil => simp [shiftRow]
        | cons c rest =>
          have h1c : 1 + leafCount hs = leafCount hs + 1 := Nat.add_comm 1 _
          rw [h1c]
          simp [shiftRow]

/-- Padding the flat row with the missing marker: on any forest, starting
record and fuel, the comparison mapper on `row` padded with `m` copies of
`Value.undef` returns the same mutated headers and the same record as the
code's mapper on `row`, with some tail of the padding left over. -/
theorem mapHeadersVF_pad :
    ∀ (fuel : Nat) (hs : List HeaderCell) (full : Record) (row : List String)
      (m : Nat),
      ∃ k : Nat,
        mapHeadersVF fuel hs full
            (row.map Value.str ++ List.replicate m Value.undef) =
          ((mapHeadersF fuel hs full row).1, (mapHeadersF fuel hs full row).2.1,
            (mapHeadersF fuel hs full row).2.2.map Value.str ++
              List.replicate k Value.undef)
  | 0, hs, full, row, m => ⟨m, rfl⟩
  | _ + 1, [], full, row, m => ⟨m, rfl⟩
  | fuel + 1, HeaderCell.mk n sp subs :: hs, full, row, m => by
    by_cases hlen : subs.length > 0
    · obtain ⟨k1, h1⟩ := mapHeadersVF_pad fuel subs [] row m
      obtain ⟨k2, h2⟩ := mapHeadersVF_pad fuel hs
        (setKey full (freshKeyName full n)
          (Value.obj (mapHeadersF fuel subs [] row).2.1))
        (mapHeadersF fuel subs [] row).2.2 k1
      refine ⟨k2, ?_⟩
      simp only [mapHeadersVF, mapHeadersF, hlen, if_true, h1, h2]
    · match row, m with
      | c :: rest, m =>
        obtain ⟨k, hk⟩ := mapHeadersVF_pad fuel hs (setKey full n (Value.str c)) rest m
        refine ⟨k, ?_⟩
        simp only [mapHeadersVF, mapHeadersF, hlen, if_false, List.map_cons,
          List.cons_append, shiftRowV, shiftRow, hk]
      | [], 0 =>
        obtain ⟨k, hk⟩ := mapHeadersVF_pad fuel hs (setKey full n Value.undef) [] 0
        simp only [List.map_nil, List.nil_append, List.replicate_zero] at hk
        refine ⟨k, ?_⟩
        simp only [mapHeadersVF, mapHeadersF, hlen, if_false, List.map_nil,
          List.nil_append, List.replicate_zero, shiftRowV, shiftRow, hk]
      | [], m + 1 =>
        obtain ⟨k, hk⟩ := mapHeadersVF_pad fuel hs (setKey full n Value.undef) [] m
        simp only [List.map_nil, List.nil_append] at hk
        refine ⟨k, ?_⟩
        simp only [mapHeadersVF, mapHeadersF, hlen, if_false, List.map_nil,
          List.nil_append, List.replicate_succ, shiftRowV, shiftRow, hk]

/-- C7: for every header forest — nested trees, duplicate names and every
span included — every starting record and every flat row, the Row Mapper is a
total function that treats a missing cell as the defined marker `undefined`:
it returns exactly what the same traversal returns on the row padded to the
forest's leaf count with `Value.undef` (so each leaf visited after the row is
exhausted has its key bound to `Value.undef`, inside nested sub-records too),
and the unconsumed leftover is `row.drop (leafCount hs)` — empty when the row
is short, the extra values when it is long.  No error arises in either
direction. -/
theorem C7_short_row_binds_undef (hs : List HeaderCell) (full : Record)
    (row : List String) :
    mapHeaders hs full row =
      ((mapHeadersV hs full
          (row.map Value.str ++
            List.replicate (leafCount hs - row.length) Value.undef)).1,
       (mapHeadersV hs full
          (row.map Value.str ++
            List.replicate (leafCount hs - row.length) Value.undef)).2.1,
       row.drop (leafCount hs)) := by
  obtain ⟨k, hk⟩ :=
    mapHeadersVF_pad (sizeOf hs) hs full row (leafCount hs - row.length)
  unfold mapHeaders mapHeadersV
  rw [hk, ← mapHeadersF_leftover (sizeOf hs) hs full row (le_refl _)]

example :
    _mapRowToHeaders
      [HeaderCell.mk "g" 2 [HeaderCell.mk "a" 0 [], HeaderCell.mk "b" 0 []],
        HeaderCell.mk "c" 0 []] ["1"] =
      [("g", Value.obj [("a", Value.str "1"), ("b", Value.undef)]),
        ("c", Value.undef)] := rfl

/-- C8, counterexample: with a leaf header literally named `unlabelled_0` and
row `["1","2"]`, the leftover value `"2"` is not appended — the assignment
`mappedRow[`unlabelled_0`]` finds the existing key and overwrites the mapped
value `"1"` in place. -/
theorem C8_counterexample :
    _mapRowToHeaders [HeaderCell.mk "unlabelled_0" 0 []] ["1", "2"] ≠
      (mapHeaders [HeaderCell.mk "unlabelled_0" 0 []] [] ["1", "2"]).2.1 ++
        unlabelledEntries 0
          (mapHeaders [HeaderCell.mk "unlabelled_0" 0 []] [] ["1", "2"]).2.2 := by
  intro h
  exact absurd (congrArg List.length h) (by decide)

/-- C8, amended: after the traversal, the values still remaining in the row
are set under keys `unlabelled_0`, `unlabelled_1`, … in order; when none of
those keys already occurs in the mapped record they are appended at its end
(in particular, with an empty header forest every value of the row lands under
an `unlabelled_<i>` key); a record key literally named `unlabelled_<i>` is
instead overwritten in place. -/
theorem C8_leftovers_appended (hs : List HeaderCell) (row : List String)
    (hfresh : ∀ i, i < (mapHeaders hs [] row).2.2.length →
      recGet (mapHeaders hs [] row).2.1 ("unlabelled_" ++ Nat.repr i) = none) :
    _mapRowToHeaders hs row =
      (mapHeaders hs [] row).2.1 ++
        unlabelledEntries 0 (mapHeaders hs [] row).2.2 := by
  unfold _mapRowToHeaders
  apply addUnlabelled_append
  intro i hi
  simpa using hfresh i hi

/-- C8, witness: zero header rows and row `["p","q"]` — every value lands
under an `unlabelled_<i>` key, appended in order. -/
theorem C8_witness :
    _mapRowToHeaders [] ["p", "q"] =
      (mapHeaders [] [] ["p", "q"]).2.1 ++
        unlabelledEntries 0 (mapHeaders [] [] ["p", "q"]).2.2 :=
  C8_leftovers_appended [] ["p", "q"] (fun _ _ => rfl)

/-- C9: leaf status is decided by the children list alone, never by the
remaining span — a single header cell with any declared span and no children
consumes exactly the first row value, the rest fall through to
`unlabelled_<i>` keys, and the result does not depend on the span. -/
theorem C9_leaf_by_children_not_span (n : String) (sp sp' : Int) (v : String)
    (vs : List String)
    (hname : ∀ i, i < vs.length → ¬("unlabelled_" ++ Nat.repr i = n)) :
    _mapRowToHeaders [HeaderCell.mk n sp []] (v :: vs) =
      (n, Value.str v) :: unlabelledEntries 0 vs ∧
    _mapRowToHeaders [HeaderCell.mk n sp []] (v :: vs) =
      _mapRowToHeaders [HeaderCell.mk n sp' []] (v :: vs) := by
  have key : ∀ z : Int,
      _mapRowToHeaders [HeaderCell.mk n z []] (v :: vs) =
        (n, Value.str v) :: unlabelledEntries 0 vs := by
    intro z
    unfold _mapRowToHeaders
    rw [mapHeaders_leaf n z [] [] (v :: vs)]
    simp only [mapHeaders_nil, shiftRow, setKey]
    have hfr : ∀ i, i < vs.length →
        recGet [(n, Value.str v)] ("unlabelled_" ++ Nat.repr (0 + i)) = none := by
      intro i hi
      have hni := hname i hi
      have hne : ¬(n = "unlabelled_" ++ Nat.repr i) := fun heq => hni heq.symm
      simp [recGet, hne]
    rw [addUnlabelled_append vs [(n, Value.str v)] 0 hfr]
    simp
  exact ⟨key sp, (key sp).trans (key sp').symm⟩

/-- C9, witness: header `[{a, colspan 3}]` with row `["1","2","3"]` —
`a` takes only `"1"`, the spanned-over values become `unlabelled_0` and
`unlabelled_1`, and declaring span 3 or 0 makes no difference. -/
theorem C9_witness :
    _mapRowToHeaders [HeaderCell.mk "a" 3 []] ["1", "2", "3"] =
      ("a", Value.str "1") :: unlabelledEntries 0 ["2", "3"] ∧
    _mapRowToHeaders [HeaderCell.mk "a" 3 []] ["1", "2", "3"] =
      _mapRowToHeaders [HeaderCell.mk "a" 0 []] ["1", "2", "3"] :=
  C9_leaf_by_children_not_span "a" 3 0 "1" ["2", "3"]
    (by
      intro i hi
      simp only [List.length_cons, List.length_nil] at hi
      interval_cases i <;> decide)

theorem getRows_filter_all (cells : List DomCell) :
    cells.filter (fun c => c.tag == CellTag.td || c.tag == CellTag.th) = cells :=
  List.filter_eq_self.mpr (fun c _ => by cases c.tag <;> rfl)

/-- C10: row extraction takes the trimmed text of every cell of a body row —
`th` cells are treated exactly like `td` cells, in document order — and the
output is invariant under rewriting cell tags. -/
theorem C10_th_cells_as_data :
    (∀ t : DomTable,
      _getRows t = t.tbodyRows.map (fun r =>
        r.cells.map (fun c => (⟨trimWsL c.text.data⟩ : String)))) ∧
    ∀ (t : DomTable) (f : CellTag → CellTag),
      _getRows (retagTable f t) = _getRows t := by
  constructor
  · intro t
    simp [_getRows, getRows_filter_all]
  · intro t f
    simp [_getRows, retagTable, getRows_filter_all, List.map_map, Function.comp]

theorem char_ofNat_toNat {n : Nat} (h : n.isValidChar) :
    (Char.ofNat n).toNat = n := by
  unfold Char.ofNat
  rw [dif_pos h]
  rfl

theorem toLower_toNat_of_upper {c : Char} (h1 : 65 ≤ c.toNat) (h2 : c.toNat ≤ 90) :
    (Char.toLower c).toNat = c.toNat + 32 := by
  unfold Char.toLower
  rw [if_pos ⟨h1, h2⟩]
  exact char_ofNat_toNat (Or.inl (by omega))

theorem toLower_eq_self {c : Char} (h : ¬(65 ≤ c.toNat ∧ c.toNat ≤ 90)) :
    Char.toLower c = c := by
  unfold Char.toLower
  rw [if_neg h]

theorem toLower_idem (c : Char) :
    Char.toLower (Char.toLower c) = Char.toLower c := by
  by_cases h : 65 ≤ c.toNat ∧ c.toNat ≤ 90
  · have ht := toLower_toNat_of_upper h.1 h.2
    apply toLower_eq_self
    rw [ht]
    omega
  · rw [toLower_eq_self h]
    exact toLower_eq_self h

theorem wsCode_false_of_between {m : Nat} (h1 : 33 ≤ m) (h2 : m ≤ 122) :
    wsCode m = false := by
  simp only [wsCode, Bool.or_eq_false_iff, beq_eq_false_iff_ne, ne_eq,
    Bool.and_eq_false_iff, decide_eq_false_iff_not, not_le]
  omega

theorem isWs_toLower (c : Char) : isWs (Char.toLower c) = isWs c := by
  by_cases h : 65 ≤ c.toNat ∧ c.toNat ≤ 90
  · unfold isWs
    rw [toLower_toNat_of_upper h.1 h.2,
      wsCode_false_of_between (by omega) (by omega),
      wsCode_false_of_between (by omega) (by omega)]
  · rw [toLower_eq_self h]

theorem headWs_reverse (l : List Char) : headWs l.reverse = lastWs l := by
  simp [headWs, lastWs]

theorem lastWs_reverse (l : List Char) : lastWs l.reverse = headWs l := by
  simp [headWs, lastWs]

theorem lastWs_cons_cons (c1 c2 : Char) (rest : List Char) :
    lastWs (c1 :: c2 :: rest) = lastWs (c2 :: rest) := by
  simp [lastWs]

theorem lastWs_cons_ne {ys : List Char} (x : Char) (h : ys ≠ []) :
    lastWs (x :: ys) = lastWs ys := by
  cases ys with
  | nil => exact absurd rfl h
  | cons y ys => exact lastWs_cons_cons x y ys

theorem allNonWs_mem {l : List Char} (h : allNonWs l = true) :
    ∀ c, c ∈ l → isWs c = false := by
  intro c hc
  have := (List.all_eq_true.mp h) c hc
  simpa using this

theorem allNonWs_headWs {l : List Char} (h : allNonWs l = true) :
    headWs l ≠ some true := by
  unfold headWs
  cases hh : l.head? with
  | none => simp
  | some c =>
    have := allNonWs_mem h c (List.mem_of_mem_head? (by rw [hh]; rfl))
    simp [this]

theorem allNonWs_lastWs {l : List Char} (h : allNonWs l = true) :
    lastWs l ≠ some true := by
  unfold lastWs
  cases hh : l.getLast? with
  | none => simp
  | some c =>
    have := allNonWs_mem h c (List.mem_of_mem_getLast? (by rw [hh]; rfl))
    simp [this]

theorem allNonWs_noAdj : ∀ l : List Char, allNonWs l = true → noAdjWs l = true
  | [] => fun _ => rfl
  | [_] => fun _ => rfl
  | c1 :: c2 :: rest => by
    intro h
    have h1 := allNonWs_mem h c1 (by simp)
    have h2 : allNonWs (c2 :: rest) = true := by
      simp only [allNonWs, List.all_cons, Bool.and_eq_true] at h ⊢
      exact h.2
    simp only [noAdjWs, h1, Bool.false_and, Bool.not_false, Bool.true_and]
    exact allNonWs_noAdj (c2 :: rest) h2

theorem dropWs_length_le : ∀ l : List Char, (dropWs l).length ≤ l.length
  | [] => le_refl _
  | c :: cs => by
    simp only [dropWs]
    by_cases h : isWs c = true
    · simp only [h, if_true]
      exact le_trans (dropWs_length_le cs) (by simp)
    · simp [h]

theorem mem_dropWs : ∀ {l : List Char} {c : Char}, c ∈ dropWs l → c ∈ l := by
  intro l
  induction l with
  | nil => intro c hc; simp [dropWs] at hc
  | cons x xs ih =>
    intro c hc
    simp only [dropWs] at hc
    by_cases h : isWs x = true
    · rw [if_pos h] at hc
      exact List.mem_cons_of_mem x (ih hc)
    · rw [if_neg h] at hc
      exact hc

theorem headWs_dropWs : ∀ l : List Char, headWs (dropWs l) ≠ some true
  | [] => by simp [dropWs, headWs]
  | c :: cs => by
    simp only [dropWs]
    by_cases h : isWs c = true
    · simp only [h, if_true]
      exact headWs_dropWs cs
    · simp only [h, if_false, Bool.false_eq_true]
      simp [headWs, h]

theorem dropWs_eq_self {l : List Char} (h : headWs l ≠ some true) :
    dropWs l = l := by
  cases l with
  | nil => rfl
  | cons c cs =>
    have hc : isWs c = false := by
      by_cases hw : isWs c = true
      · exact absurd (by simp [headWs, hw]) h
      · simpa using hw
    simp [dropWs, hc]

theorem getLast?_dropWs : ∀ l : List Char, dropWs l ≠ [] →
    (dropWs l).getLast? = l.getLast? := by
  intro l
  induction l with
  | nil => intro h; exact absurd rfl h
  | cons c cs ih =>
    intro h
    simp only [dropWs] at h ⊢
    by_cases hw : isWs c = true
    · rw [if_pos hw] at h ⊢
      rw [ih h]
      cases cs with
      | nil => simp [dropWs] at h
      | cons c2 cs2 => exact (List.getLast?_cons_cons).symm
    · rw [if_neg hw]

theorem trimWsL_eq_self {l : List Char} (h1 : headWs l ≠ some true)
    (h2 : lastWs l ≠ some true) : trimWsL l = l := by
  unfold trimWsL
  rw [dropWs_eq_self h1]
  rw [dropWs_eq_self (by rw [headWs_reverse]; exact h2)]
  exact List.reverse_reverse l

theorem headWs_trimWsL (l : List Char) : headWs (trimWsL l) ≠ some true := by
  unfold trimWsL
  by_cases hnil : dropWs (dropWs l).reverse = []
  · simp [hnil, headWs]
  · have h1 : (dropWs (dropWs l).reverse).getLast? = ((dropWs l).reverse).getLast? :=
      getLast?_dropWs _ hnil
    show headWs (dropWs (dropWs l).reverse).reverse ≠ some true
    rw [show headWs (dropWs (dropWs l).reverse).reverse =
        lastWs (dropWs (dropWs l).reverse) from headWs_reverse _]
    unfold lastWs
    rw [h1, List.getLast?_reverse]
    have := headWs_dropWs l
    unfold headWs at this
    exact this

theorem lastWs_trimWsL (l : List Char) : lastWs (trimWsL l) ≠ some true := by
  unfold trimWsL
  rw [lastWs_reverse]
  exact headWs_dropWs _

theorem mem_trimWsL {l : List Char} {c : Char} (h : c ∈ trimWsL l) : c ∈ l := by
  unfold trimWsL at h
  rw [List.mem_reverse] at h
  have h2 := mem_dropWs h
  rw [List.mem_reverse] at h2
  exact mem_dropWs h2

theorem headWs_map_toLower (l : List Char) :
    headWs (l.map Char.toLower) = headWs l := by
  cases l with
  | nil => rfl
  | cons c cs => simp [headWs, isWs_toLower]

theorem lastWs_map_toLower (l : List Char) :
    lastWs (l.map Char.toLower) = lastWs l := by
  unfold lastWs
  rw [List.getLast?_map]
  cases l.getLast? with
  | none => rfl
  | some c => simp [isWs_toLower]

theorem map_toLower_fixpoint : ∀ l : List Char,
    (∀ c, c ∈ l → Char.toLower c = c) → l.map Char.toLower = l
  | [] => fun _ => rfl
  | c :: cs => fun h => by
    rw [List.map_cons, h c (by simp),
      map_toLower_fixpoint cs (fun c' hc' => h c' (by simp [hc']))]

theorem collapseF_congr :
    ∀ f1 f2 : Nat, ∀ l : List Char, l.length ≤ f1 → l.length ≤ f2 →
      collapseF f1 l = collapseF f2 l := by
  intro f1
  induction f1 with
  | zero =>
    intro f2 l h1 _
    have : l = [] := List.length_eq_zero.mp (by omega)
    subst this
    cases f2 <;> rfl
  | succ f1 ih =>
    intro f2 l h1 h2
    match f2, l with
    | 0, l =>
      have : l = [] := List.length_eq_zero.mp (by omega)
      subst this
      rfl
    | f2 + 1, [] => rfl
    | f2 + 1, [c] => rfl
    | f2 + 1, c1 :: c2 :: rest =>
      simp only [List.length_cons] at h1 h2
      simp only [collapseF]
      by_cases h : (isWs c1 && isWs c2) = true
      · rw [if_pos h, if_pos h,
          ih f2 (dropWs rest) (by have := dropWs_length_le rest; omega)
            (by have := dropWs_length_le rest; omega)]
      · rw [if_neg h, if_neg h,
          ih f2 (c2 :: rest) (by simp; omega) (by simp; omega)]

theorem collapseWs_cons_cons (c1 c2 : Char) (rest : List Char) :
    collapseWs (c1 :: c2 :: rest) =
      if isWs c1 && isWs c2 then ' ' :: collapseWs (dropWs rest)
      else c1 :: collapseWs (c2 :: rest) := by
  unfold collapseWs
  rw [List.length_cons, List.length_cons]
  simp only [collapseF]
  by_cases h : (isWs c1 && isWs c2) = true
  · simp only [h, if_true]
    rw [collapseF_congr (rest.length + 1) (dropWs rest).length (dropWs rest)
      (by have := dropWs_length_le rest; omega) (le_refl _)]
  · simp only [h, if_false]
    rfl

theorem headWs_collapseWs : ∀ l : List Char, headWs (collapseWs l) = headWs l
  | [] => rfl
  | [c] => rfl
  | c1 :: c2 :: rest => by
    rw [collapseWs_cons_cons]
    by_cases h : (isWs c1 && isWs c2) = true
    · simp only [h, if_true]
      have hc1 : isWs c1 = true := by
        simp only [Bool.and_eq_true] at h
        exact h.1
      have hsp : isWs ' ' = true := by decide
      simp [headWs, hc1, hsp]
    · simp [h, headWs]

theorem collapseWs_ne_nil {l : List Char} (h : l ≠ []) : collapseWs l ≠ [] := by
  intro hc
  have := headWs_collapseWs l
  rw [hc] at this
  cases l with
  | nil => exact h rfl
  | cons c cs => simp [headWs] at this

theorem noAdjWs_cons_of (x : Char) (ys : List Char) (hadj : noAdjWs ys = true)
    (h : isWs x = false ∨ headWs ys ≠ some true) : noAdjWs (x :: ys) = true := by
  cases ys with
  | nil => rfl
  | cons y ys2 =>
    simp only [noAdjWs, Bool.and_eq_true]
    refine ⟨?_, hadj⟩
    rcases h with hx | hy
    · simp [hx]
    · have : isWs y = false := by
        cases hw : isWs y
        · rfl
        · exact absurd (by simp [headWs, hw]) hy
      simp [this]

theorem dropWs_eq_nil_all : ∀ {l : List Char}, dropWs l = [] →
    ∀ c ∈ l, isWs c = true := by
  intro l
  induction l with
  | nil => intro _ c hc; simp at hc
  | cons x xs ih =>
    intro h c hc
    simp only [dropWs] at h
    by_cases hx : isWs x = true
    · rw [if_pos hx] at h
      rcases List.mem_cons.mp hc with rfl | hm
      · exact hx
      · exact ih h c hm
    · rw [if_neg hx] at h
      simp at h

theorem lastWs_all_ws : ∀ l : List Char, (∀ c ∈ l, isWs c = true) → l ≠ [] →
    lastWs l = some true
  | [], h, hne => absurd rfl hne
  | [c], h, _ => by simp [lastWs, h c (by simp)]
  | c1 :: c2 :: rest, h, _ => by
    rw [lastWs_cons_cons]
    exact lastWs_all_ws (c2 :: rest) (fun c hc => h c (by simp [hc])) (by simp)

theorem lastWs_collapseWs : ∀ l : List Char, lastWs (collapseWs l) = lastWs l
  | [] => rfl
  | [c] => rfl
  | c1 :: c2 :: rest => by
    rw [collapseWs_cons_cons]
    by_cases h : (isWs c1 && isWs c2) = true
    · rw [if_pos h]
      by_cases hnil : dropWs rest = []
      · have hcnil : collapseWs (dropWs rest) = [] := by rw [hnil]; rfl
        rw [hcnil]
        have hall : ∀ c ∈ rest, isWs c = true := dropWs_eq_nil_all hnil
        have hc2 : isWs c2 = true := by
          simp only [Bool.and_eq_true] at h
          exact h.2
        have hsp : isWs ' ' = true := by decide
        cases hrest : rest with
        | nil =>
          subst hrest
          simp [lastWs, hsp, hc2]
        | cons r rs =>
          subst hrest
          rw [lastWs_cons_cons, lastWs_cons_cons,
            lastWs_all_ws (r :: rs) hall (by simp)]
          simp [lastWs, hsp]
      · have hne := collapseWs_ne_nil hnil
        rw [lastWs_cons_ne ' ' hne, lastWs_collapseWs (dropWs rest)]
        have hrne : rest ≠ [] := by
          intro hr
          subst hr
          exact hnil rfl
        rw [lastWs_cons_cons, lastWs_cons_ne c2 hrne]
        unfold lastWs
        rw [getLast?_dropWs rest hnil]
    · rw [if_neg h]
      have hcne : collapseWs (c2 :: rest) ≠ [] := collapseWs_ne_nil (by simp)
      rw [lastWs_cons_ne c1 hcne, lastWs_collapseWs (c2 :: rest), lastWs_cons_cons]
termination_by l => l.length
decreasing_by
  all_goals simp only [List.length_cons]
  all_goals (have h := dropWs_length_le rest; omega)

theorem noAdjWs_collapseWs : ∀ l : List Char, noAdjWs (collapseWs l) = true
  | [] => rfl
  | [c] => rfl
  | c1 :: c2 :: rest => by
    rw [collapseWs_cons_cons]
    by_cases h : (isWs c1 && isWs c2) = true
    · rw [if_pos h]
      apply noAdjWs_cons_of
      · exact noAdjWs_collapseWs (dropWs rest)
      · right
        rw [headWs_collapseWs]
        exact headWs_dropWs rest
    · rw [if_neg h]
      apply noAdjWs_cons_of
      · exact noAdjWs_collapseWs (c2 :: rest)
      · by_cases hc1 : isWs c1 = true
        · right
          rw [headWs_collapseWs]
          have hc2 : isWs c2 = false := by
            cases hw : isWs c2
            · rfl
            · exact absurd (by simp [hc1, hw]) h
          simp [headWs, hc2]
        · left
          simpa using hc1
termination_by l => l.length
decreasing_by
  all_goals simp only [List.length_cons]
  all_goals (have h := dropWs_length_le rest; omega)

theorem collapseWs_eq_self : ∀ l : List Char, noAdjWs l = true → collapseWs l = l
  | [] => fun _ => rfl
  | [c] => fun _ => rfl
  | c1 :: c2 :: rest => fun h => by
    have hsplit : (isWs c1 && isWs c2) = false ∧ noAdjWs (c2 :: rest) = true := by
      simp only [noAdjWs, Bool.and_eq_true, Bool.not_eq_true'] at h
      exact h
    rw [collapseWs_cons_cons, if_neg (by simp [hsplit.1]),
      collapseWs_eq_self (c2 :: rest) hsplit.2]
termination_by l => l.length
decreasing_by
  all_goals simp only [List.length_cons]
  all_goals omega

theorem mem_collapseWs : ∀ l : List Char, ∀ c ∈ collapseWs l, c ∈ l ∨ c = ' '
  | [] => by intro c hc; simp [collapseWs, collapseF] at hc
  | [x] => by
    intro c hc
    left
    simpa [collapseWs, collapseF] using hc
  | c1 :: c2 :: rest => by
    intro c hc
    rw [collapseWs_cons_cons] at hc
    by_cases h : (isWs c1 && isWs c2) = true
    · rw [if_pos h] at hc
      rcases List.mem_cons.mp hc with hceq | hmem
      · right; exact hceq
      · rcases mem_collapseWs (dropWs rest) c hmem with hin | hsp
        · left
          exact List.mem_cons_of_mem _ (List.mem_cons_of_mem _ (mem_dropWs hin))
        · right; exact hsp
    · rw [if_neg h] at hc
      rcases List.mem_cons.mp hc with hceq | hmem
      · left; simp [hceq]
      · rcases mem_collapseWs (c2 :: rest) c hmem with hin | hsp
        · left; exact List.mem_cons_of_mem _ hin
        · right; exact hsp
termination_by l => l.length
decreasing_by
  all_goals simp only [List.length_cons]
  all_goals (have h := dropWs_length_le rest; omega)

theorem expandDollar_noDollar :
    ∀ (rep : List Char), noDollar rep = true →
      ∀ (pre post : List Char) (m : Char), expandDollar pre post m rep = rep
  | [], _, _, _, _ => rfl
  | [_], _, _, _, _ => rfl
  | c :: d :: rest, h, pre, post, m => by
    have hc : ¬(c = '$') := by
      simp only [noDollar, List.all_cons, Bool.and_eq_true] at h
      intro he
      rw [he] at h
      simp at h
    have hrest : noDollar (d :: rest) = true := by
      simp only [noDollar, List.all_cons, Bool.and_eq_true] at h ⊢
      exact ⟨h.2.1, h.2.2⟩
    simp only [expandDollar, if_neg hc]
    rw [expandDollar_noDollar (d :: rest) hrest pre post m]

theorem replaceWsGo_lit {rep : List Char} (h : noDollar rep = true)
    (orig : List Char) :
    ∀ (i : Nat) (l : List Char), replaceWsGo orig rep i l = replaceWsLit rep l
  | _, [] => rfl
  | i, c :: cs => by
    by_cases hc : isWs c = true
    · simp only [replaceWsGo, replaceWsLit, if_pos hc,
        expandDollar_noDollar rep h, replaceWsGo_lit h orig (i + 1) cs]
    · simp only [replaceWsGo, replaceWsLit, if_neg hc,
        replaceWsGo_lit h orig (i + 1) cs, List.singleton_append]

/-- With a `$`-free replacement the replace of line 48 is literal
substitution. -/
theorem replaceWsL_lit {rep : List Char} (h : noDollar rep = true)
    (l : List Char) : replaceWsL rep l = replaceWsLit rep l :=
  replaceWsGo_lit h l 0 l

/-- On a subject without whitespace the replace has no match and returns the
subject, whatever the replacement is. -/
theorem replaceWsGo_id (orig rep : List Char) :
    ∀ (i : Nat) (l : List Char), allNonWs l = true → replaceWsGo orig rep i l = l
  | _, [], _ => rfl
  | i, c :: cs, h => by
    have h1 : ¬isWs c = true := by
      simp only [allNonWs, List.all_cons, Bool.and_eq_true] at h
      simpa using h.1
    have h2 : allNonWs cs = true := by
      simp only [allNonWs, List.all_cons, Bool.and_eq_true] at h
      simpa [allNonWs] using h.2
    simp only [replaceWsGo, if_neg h1]
    rw [replaceWsGo_id orig rep (i + 1) cs h2]

theorem replaceWsL_id {rep l : List Char} (h : allNonWs l = true) :
    replaceWsL rep l = l :=
  replaceWsGo_id l rep 0 l h

theorem allNonWs_replaceWsLit {rep : List Char} (hrep : allNonWs rep = true) :
    ∀ l : List Char, allNonWs (replaceWsLit rep l) = true
  | [] => rfl
  | c :: cs => by
    simp only [replaceWsLit, allNonWs, List.all_append, Bool.and_eq_true]
    constructor
    · by_cases h : isWs c = true
      · rw [if_pos h]
        simpa [allNonWs] using hrep
      · rw [if_neg h]
        simp [h]
    · simpa [allNonWs] using allNonWs_replaceWsLit hrep cs

theorem replaceWsLit_eq_self {rep : List Char} :
    ∀ {l : List Char}, allNonWs l = true → replaceWsLit rep l = l := by
  intro l
  induction l with
  | nil => intro _; rfl
  | cons c cs ih =>
    intro h
    simp only [allNonWs, List.all_cons, Bool.and_eq_true] at h
    have hc : isWs c = false := by simpa using h.1
    have ihcs := ih (by simpa [allNonWs] using h.2)
    simp [replaceWsLit, hc, ihcs]

theorem mem_replaceWsLit {rep : List Char} :
    ∀ {l : List Char} {c : Char}, c ∈ replaceWsLit rep l →
      c ∈ rep ∨ (c ∈ l ∧ isWs c = false) := by
  intro l
  induction l with
  | nil => intro c hc; simp [replaceWsLit] at hc
  | cons x xs ih =>
    intro c hc
    simp only [replaceWsLit, List.mem_append] at hc
    rcases hc with h1 | h2
    · by_cases hx : isWs x = true
      · rw [if_pos hx] at h1
        exact Or.inl h1
      · rw [if_neg hx] at h1
        have hcx : c = x := by simpa using h1
        subst hcx
        exact Or.inr ⟨by simp, by simpa using hx⟩
    · rcases ih h2 with ha | ⟨hb, hn⟩
      · exact Or.inl ha
      · exact Or.inr ⟨List.mem_cons_of_mem _ hb, hn⟩

theorem normalizeLLow_active (low : List Char → List Char) (o : ParserOpts)
    (hact : o.replace_whitespaces_keys.active = true) (l : List Char) :
    normalizeLLow low o l =
      replaceWsL o.replace_whitespaces_keys.repl.data (preReplaceLow low o l) := by
  unfold normalizeLLow
  rw [if_pos hact]

theorem normalizeLLow_inactive (low : List Char → List Char) (o : ParserOpts)
    (hact : ¬o.replace_whitespaces_keys.active = true) (l : List Char) :
    normalizeLLow low o l = preReplaceLow low o l := by
  unfold normalizeLLow
  rw [if_neg hact]

theorem preReplaceLow_ends (low : List Char → List Char)
    (hhead : ∀ t : List Char, headWs (low t) = headWs t)
    (hlast : ∀ t : List Char, lastWs (low t) = lastWs t)
    (o : ParserOpts) (l : List Char) (h : o.trim_keys = true) :
    headWs (preReplaceLow low o l) ≠ some true ∧
      lastWs (preReplaceLow low o l) ≠ some true := by
  simp only [preReplaceLow]
  rw [if_pos h]
  by_cases hlc : o.lowercase_keys = true
  · rw [if_pos hlc]
    by_cases hcw : o.remove_double_whitespaces = true
    · rw [if_pos hcw]
      exact ⟨by rw [headWs_collapseWs, hhead]; exact headWs_trimWsL l,
             by rw [lastWs_collapseWs, hlast]; exact lastWs_trimWsL l⟩
    · rw [if_neg hcw]
      exact ⟨by rw [hhead]; exact headWs_trimWsL l,
             by rw [hlast]; exact lastWs_trimWsL l⟩
  · rw [if_neg hlc]
    by_cases hcw : o.remove_double_whitespaces = true
    · rw [if_pos hcw]
      exact ⟨by rw [headWs_collapseWs]; exact headWs_trimWsL l,
             by rw [lastWs_collapseWs]; exact lastWs_trimWsL l⟩
    · rw [if_neg hcw]
      exact ⟨headWs_trimWsL l, lastWs_trimWsL l⟩

theorem preReplaceLow_noAdj (low : List Char → List Char) (o : ParserOpts)
    (l : List Char) (h : o.remove_double_whitespaces = true) :
    noAdjWs (preReplaceLow low o l) = true := by
  simp only [preReplaceLow]
  rw [if_pos h]
  exact noAdjWs_collapseWs _

theorem preReplaceLow_fixedChars (low : List Char → List Char)
    (fixed : Char → Bool)
    (hout : ∀ t : List Char, ∀ c ∈ low t, fixed c = true)
    (hsp : fixed ' ' = true) (o : ParserOpts) (l : List Char)
    (h : o.lowercase_keys = true) :
    ∀ c ∈ preReplaceLow low o l, fixed c = true := by
  simp only [preReplaceLow]
  rw [if_pos h]
  intro c hc
  by_cases hcw : o.remove_double_whitespaces = true
  · rw [if_pos hcw] at hc
    rcases mem_collapseWs _ c hc with hm | rfl
    · exact hout _ c hm
    · exact hsp
  · rw [if_neg hcw] at hc
    exact hout _ c hc

theorem preReplaceLow_fixpoint (low : List Char → List Char)
    (fixed : Char → Bool)
    (hfix : ∀ t : List Char, (∀ c ∈ t, fixed c = true) → low t = t)
    (o : ParserOpts) (t : List Char)
    (htr : o.trim_keys = true → headWs t ≠ some true ∧ lastWs t ≠ some true)
    (hlc : o.lowercase_keys = true → ∀ c ∈ t, fixed c = true)
    (hcw : o.remove_double_whitespaces = true → noAdjWs t = true) :
    preReplaceLow low o t = t := by
  simp only [preReplaceLow]
  have e1 : (if o.trim_keys = true then trimWsL t else t) = t := by
    by_cases h : o.trim_keys = true
    · rw [if_pos h]
      exact trimWsL_eq_self (htr h).1 (htr h).2
    · rw [if_neg h]
  rw [e1]
  have e2 : (if o.lowercase_keys = true then low t else t) = t := by
    by_cases h : o.lowercase_keys = true
    · rw [if_pos h]
      exact hfix t (hlc h)
    · rw [if_neg h]
  rw [e2]
  by_cases h : o.remove_double_whitespaces = true
  · rw [if_pos h]
    exact collapseWs_eq_self t (hcw h)
  · rw [if_neg h]

theorem normalizeLLow_idem (low : List Char → List Char) (fixed : Char → Bool)
    (hfix : ∀ t : List Char, (∀ c ∈ t, fixed c = true) → low t = t)
    (hout : ∀ t : List Char, ∀ c ∈ low t, fixed c = true)
    (hhead : ∀ t : List Char, headWs (low t) = headWs t)
    (hlast : ∀ t : List Char, lastWs (low t) = lastWs t)
    (hsp : fixed ' ' = true)
    (o : ParserOpts)
    (hw : o.replace_whitespaces_keys.active = true →
      allNonWs o.replace_whitespaces_keys.repl.data = true ∧
        noDollar o.replace_whitespaces_keys.repl.data = true)
    (hlrep : o.replace_whitespaces_keys.active = true → o.lowercase_keys = true →
      ∀ c ∈ o.replace_whitespaces_keys.repl.data, fixed c = true)
    (l : List Char) :
    normalizeLLow low o (normalizeLLow low o l) = normalizeLLow low o l := by
  by_cases hact : o.replace_whitespaces_keys.active = true
  · obtain ⟨hrep, hnd⟩ := hw hact
    rw [normalizeLLow_active low o hact l, normalizeLLow_active low o hact]
    simp only [replaceWsL_lit hnd]
    have hnw : allNonWs
        (replaceWsLit o.replace_whitespaces_keys.repl.data
          (preReplaceLow low o l)) = true :=
      allNonWs_replaceWsLit hrep _
    have hfixO : preReplaceLow low o
        (replaceWsLit o.replace_whitespaces_keys.repl.data (preReplaceLow low o l)) =
        replaceWsLit o.replace_whitespaces_keys.repl.data (preReplaceLow low o l) := by
      apply preReplaceLow_fixpoint low fixed hfix
      · intro _
        exact ⟨allNonWs_headWs hnw, allNonWs_lastWs hnw⟩
      · intro hlc c hc
        rcases mem_replaceWsLit hc with hr | ⟨hm, _⟩
        · exact hlrep hact hlc c hr
        · exact preReplaceLow_fixedChars low fixed hout hsp o l hlc c hm
      · intro _
        exact allNonWs_noAdj _ hnw
    rw [hfixO, replaceWsLit_eq_self hnw]
  · rw [normalizeLLow_inactive low o hact l, normalizeLLow_inactive low o hact]
    apply preReplaceLow_fixpoint low fixed hfix
    · intro htr
      exact preReplaceLow_ends low hhead hlast o l htr
    · intro hlc c hc
      exact preReplaceLow_fixedChars low fixed hout hsp o l hlc c hc
    · intro hcw
      exact preReplaceLow_noAdj low o l hcw

/-- C5, counterexample: with the replacement string `" x"` (which contains a
whitespace character) normalization is not idempotent:
`"a b"` normalizes to `"a xb"`, which normalizes again to `"a xxb"`. -/
theorem C5_counterexample :
    normalizeKey { replace_whitespaces_keys := ReplWs.str " x" }
        (normalizeKey { replace_whitespaces_keys := ReplWs.str " x" } "a b") ≠
      normalizeKey { replace_whitespaces_keys := ReplWs.str " x" } "a b" := by
  decide

/-- C5, amended: over any model `low` of the host lowercasing primitive that
(i) fixes every string made of individually-fixed characters, (ii) outputs
only such characters, (iii) preserves whether the first and the last
character are whitespace, and (iv) counts the space as fixed — properties
Unicode case conversion has — key normalization is idempotent for every
combination of the four options, provided that when the whitespace-replace
step is active its replacement string contains no whitespace character and no
`$` (the replacement is a pattern: `$&` reinserts the matched whitespace),
and — when lowercasing is also on — only characters fixed by the lowercasing.
The boolean form's replacement `'_'` satisfies all three; a replacement
containing whitespace, a `$`, or a character the lowercasing changes, breaks
idempotence. -/
theorem C5_normalize_idem (low : List Char → List Char) (fixed : Char → Bool)
    (o : ParserOpts) (s : String)
    (hfix : ∀ t : List Char, (∀ c ∈ t, fixed c = true) → low t = t)
    (hout : ∀ t : List Char, ∀ c ∈ low t, fixed c = true)
    (hhead : ∀ t : List Char, headWs (low t) = headWs t)
    (hlast : ∀ t : List Char, lastWs (low t) = lastWs t)
    (hsp : fixed ' ' = true)
    (hw : o.replace_whitespaces_keys.active = true →
      allNonWs o.replace_whitespaces_keys.repl.data = true ∧
        noDollar o.replace_whitespaces_keys.repl.data = true)
    (hlrep : o.replace_whitespaces_keys.active = true → o.lowercase_keys = true →
      ∀ c ∈ o.replace_whitespaces_keys.repl.data, fixed c = true) :
    normalizeKeyLow low o (normalizeKeyLow low o s) = normalizeKeyLow low o s :=
  congrArg String.mk
    (normalizeLLow_idem low fixed hfix hout hhead hlast hsp o hw hlrep s.data)

/-- C5, witness: the ASCII lowercasing instance — which satisfies the four
lowercasing hypotheses — at the default options (underscore replacement) on
`"A  b c"`. -/
theorem C5_witness :
    normalizeKeyLow asciiLower {} (normalizeKeyLow asciiLower {} "A  b c") =
      normalizeKeyLow asciiLower {} "A  b c" :=
  C5_normalize_idem asciiLower (fun c => Char.toLower c == c) {} "A  b c"
    (fun t h => by
      simp only [asciiLower]
      exact map_toLower_fixpoint t (fun c hc => by simpa using h c hc))
    (fun t c hc => by
      simp only [asciiLower] at hc
      rcases List.mem_map.mp hc with ⟨a, _, rfl⟩
      simpa using toLower_idem a)
    (fun t => by simp only [asciiLower]; exact headWs_map_toLower t)
    (fun t => by simp only [asciiLower]; exact lastWs_map_toLower t)
    (by decide)
    (fun _ => by decide)
    (fun _ _ => by decide)

/-! ## The rename loop's fuel always suffices

`freshKeyName` passes fuel `full.length + 1` to the fueled `renameLoop`.
These lemmas justify the model: each continuing iteration's current name is a
key of `full`, the candidate names strictly grow in length, so the count of
keys at least as long as the current name strictly decreases — the loop stops
on a non-truthy name before the fuel runs out, exactly as the JavaScript
`for (…; fullHeaders[header.name]; …)` loop does. -/

theorem recGet_some_mem {r : Record} {k : String} {v : Value}
    (h : recGet r k = some v) : k ∈ r.map Prod.fst := by
  induction r with
  | nil => simp [recGet] at h
  | cons p rest ih =>
    obtain ⟨k1, v1⟩ := p
    simp only [recGet] at h
    by_cases hk : (k1 == k) = true
    · have hE : k1 = k := by simpa using hk
      simp [hE]
    · rw [if_neg hk] at h
      simp [ih h]

theorem countP_lt_of_strict {α : Type} (l : List α) (p q : α → Bool)
    (himp : ∀ a ∈ l, q a = true → p a = true)
    (hex : ∃ a ∈ l, p a = true ∧ q a = false) :
    l.countP q < l.countP p := by
  induction l with
  | nil => simp at hex
  | cons x xs ih =>
    rcases hex with ⟨a, ha, hpa, hqa⟩
    rcases List.mem_cons.mp ha with rfl | hmem
    · have hqx : ¬(q a = true) := by simp [hqa]
      rw [List.countP_cons_of_neg _ _ hqx, List.countP_cons_of_pos _ _ hpa]
      have hmono : xs.countP q ≤ xs.countP p :=
        List.countP_mono_left (fun b hb => himp b (by simp [hb]))
      omega
    · have hrec := ih (fun b hb hq => himp b (by simp [hb]) hq) ⟨a, hmem, hpa, hqa⟩
      by_cases hqx : q x = true
      · rw [List.countP_cons_of_pos _ _ hqx,
          List.countP_cons_of_pos _ _ (himp x (by simp) hqx)]
        omega
      · rw [List.countP_cons_of_neg _ _ hqx]
        by_cases hpx : p x = true
        · rw [List.countP_cons_of_pos _ _ hpx]
          omega
        · rw [List.countP_cons_of_neg _ _ hpx]
          omega

theorem renameLoop_not_truthy (full : Record) :
    ∀ (fuel : Nat) (name : String) (i : Nat),
      (full.map Prod.fst).countP (fun k => name.length ≤ k.length) < fuel →
      vTruthy (recGet full (renameLoop full fuel name i)) = false := by
  intro fuel
  induction fuel with
  | zero => intro name i hm; omega
  | succ fuel ih =>
    intro name i hm
    simp only [renameLoop]
    by_cases ht : vTruthy (recGet full name) = true
    · rw [if_pos ht]
      apply ih
      have hmem : name ∈ full.map Prod.fst := by
        cases hg : recGet full name with
        | none => rw [hg] at ht; simp [vTruthy] at ht
        | some v => exact recGet_some_mem hg
      have hlen : name.length < (name ++ "_" ++ Nat.repr i).length := by
        rw [String.length_append, String.length_append]
        have hu : 0 < "_".length := by decide
        omega
      have hstrict :
          (full.map Prod.fst).countP
              (fun k => (name ++ "_" ++ Nat.repr i).length ≤ k.length) <
            (full.map Prod.fst).countP (fun k => name.length ≤ k.length) := by
        apply countP_lt_of_strict
        · intro a _ hq
          simp only [decide_eq_true_eq] at hq ⊢
          omega
        · refine ⟨name, hmem, by simp, ?_⟩
          simp only [decide_eq_false_iff_not, not_le]
          exact hlen
      omega
    · rw [if_neg ht]
      simpa using ht

theorem freshKeyName_not_truthy (full : Record) (name : String) :
    vTruthy (recGet full (freshKeyName full name)) = false := by
  apply renameLoop_not_truthy
  calc (full.map Prod.fst).countP (fun k => name.length ≤ k.length)
      ≤ (full.map Prod.fst).length := List.countP_le_length _
    _ = full.length := List.length_map _ _
    _ < full.length + 1 := by omega
